import Mathlib

/-!
Verification development for the EushlatorV2 dialogue-box reconstruction core.

Python strings are modelled as `List Char`; scripts are `List (List Char)`
(one entry per line).  Fallible code (Python `IndexError` / `raise`) is
modelled with `Option`: `none` is an uncaught exception.  Every definition is
a direct translation of the corresponding function in `src/eushlator`.
-/

namespace Eushlator

/-- Convert a Lean string literal to the `List Char` representation. -/
def strL (s : String) : List Char := s.data

/-- Python `str.lstrip()`: drop leading whitespace. -/
def lstripL (l : List Char) : List Char := l.dropWhile Char.isWhitespace

/-- Python `str.strip()`: drop leading and trailing whitespace. -/
def trimL (l : List Char) : List Char :=
  ((l.dropWhile Char.isWhitespace).reverse.dropWhile Char.isWhitespace).reverse

/-- Python `str.startswith(p)`. -/
def startsWithL (p l : List Char) : Bool := p.isPrefixOf l

@[simp] theorem startsWithL_eq (p l : List Char) :
    startsWithL p l = p.isPrefixOf l := rfl

/-!
## Label Scout (`src/eushlator/utils/code_utils.py`, `find_label_before`)

`matches` collects every window position where the script equals the template:
Python `for i in range(len(code) - seq_len + 1): if code[i:i+seq_len] == label_template`.
`range(len(code) - seq_len + 1)` is empty when `seq_len > len(code)`, which the
Nat expression `code.length + 1 - template.length` reproduces exactly.
-/

def matchIndices (code template : List (List Char)) : List Nat :=
  (List.range (code.length + 1 - template.length)).filter
    (fun i => (code.drop i).take template.length = template)

/-- `find_label_before` (code_utils.py lines 44-61).  With exactly one match at
`i`, Python returns `code[i-1]`; for `i = 0` this is `code[-1]`, i.e. the LAST
line of the script (Python negative indexing); on an empty script it would be
an `IndexError`, modelled by `none` (reachable only with an empty template).
Zero or several matches return the empty string. -/
def find_label_before (code template : List (List Char)) : Option (List Char) :=
  match matchIndices code template with
  | [i] => if i = 0 then code.getLast? else (code.drop (i - 1)).head?
  | _ => some []

/-- Claim C4 counterexample: with script `["T", "X"]` and template `["T"]` the
template occurs exactly once, at index 0, where no preceding line exists; yet
`find_label_before` returns the LAST line `"X"` (Python `code[-1]`), which is
neither a preceding line nor the empty string the claim allows. -/
theorem find_label_before_counterexample :
    matchIndices [['T'], ['X']] [['T']] = [0] ∧
    find_label_before [['T'], ['X']] [['T']] = some ['X'] ∧
    (['X'] : List Char) ≠ ['T'] ∧ (['X'] : List Char) ≠ [] := by decide

/-- Claim C4 (amended): for a non-empty template, if the template occurs
exactly once at an index `i ≥ 1`, `find_label_before` returns the line
immediately preceding the occurrence; if the unique occurrence is at index 0
it returns the script's last line (Python negative indexing); if the template
occurs zero times or more than once it returns the empty string. -/
theorem find_label_before_spec (code template : List (List Char))
    (h : template ≠ []) :
    (∀ i, matchIndices code template = [i] → 1 ≤ i →
        i - 1 < code.length ∧ find_label_before code template = code[i - 1]?) ∧
    (matchIndices code template = [0] →
        find_label_before code template = code.getLast?) ∧
    (∀ ms, matchIndices code template = ms → ms.length ≠ 1 →
        find_label_before code template = some []) := by
  refine ⟨?_, ?_, ?_⟩
  · intro i hm hi
    have hmem : i ∈ matchIndices code template := by rw [hm]; exact List.mem_singleton_self i
    have hrange : i < code.length + 1 - template.length :=
      List.mem_range.1 (List.mem_of_mem_filter hmem)
    have hlen : 1 ≤ template.length := List.length_pos.2 h
    have hib : i - 1 < code.length := by omega
    refine ⟨hib, ?_⟩
    unfold find_label_before
    rw [hm]
    have hne : ¬ i = 0 := by omega
    change (if i = 0 then code.getLast? else (List.drop (i - 1) code).head?) = _
    rw [if_neg hne, List.head?_drop]
  · intro hm
    unfold find_label_before
    rw [hm]
    change (if (0 : Nat) = 0 then code.getLast? else (List.drop (0 - 1) code).head?) = _
    rw [if_pos rfl]
  · intro ms hm hlen
    unfold find_label_before
    rw [hm]
    match ms, hlen with
    | [], _ => rfl
    | [a], hlen => exact absurd rfl hlen
    | a :: b :: rest, _ => rfl

/-- Witness for C4 at a concrete input: script `["A", "T", "B"]`, template
`["T"]` (unique occurrence at index 1) returns the preceding line `"A"`. -/
theorem find_label_before_spec_witness :
    (1 : Nat) - 1 < ([['A'], ['T'], ['B']] : List (List Char)).length ∧
    find_label_before [['A'], ['T'], ['B']] [['T']] =
      ([['A'], ['T'], ['B']] : List (List Char))[1 - 1]? :=
  (find_label_before_spec [['A'], ['T'], ['B']] [['T']] (by decide)).1 1
    (by decide) (by decide)

/-!
## Chunk Collapser (`src/eushlator/process/extract_dialogue_refine.py`,
`_collapse_boxes`)
-/

/-- One entry of the per-scene box list: the `{speaker, text}` fields that
`_collapse_boxes` reads. -/
structure BoxD where
  speaker : List Char
  text : List Char
deriving DecidableEq, Repr

/-- One chunk produced by `_collapse_boxes`.  `src` is ghost data recording the
member boxes of the chunk (the source keeps them in `cur_lines` only as texts;
we retain the boxes themselves to state the round-trip property). -/
structure Chunk where
  speaker : List Char
  text : List Char
  id : Nat
  src : List BoxD
deriving DecidableEq, Repr

/-- Loop of `_collapse_boxes`: `cur_speaker`/`cur_lines`/`i`/`chunks` mirror the
Python locals; `srcs` is the ghost list of boxes merged into the current chunk
(so `lines = srcs.map text` at all times). -/
def collapseGo : List BoxD → List Char → List (List Char) → List BoxD → Nat →
    List Chunk → List Chunk
  | [], spk, lines, srcs, i, chunks =>
      chunks ++ [⟨spk, [Char.ofNat 10].intercalate lines, i, srcs⟩]
  | b :: rest, spk, lines, srcs, i, chunks =>
      if b.speaker = spk then
        collapseGo rest spk (lines ++ [b.text]) (srcs ++ [b]) i chunks
      else
        collapseGo rest b.speaker [b.text] [b] (i + 1)
          (chunks ++ [⟨spk, [Char.ofNat 10].intercalate lines, i, srcs⟩])

/-- `_collapse_boxes` (extract_dialogue_refine.py lines 50-83). -/
def collapse_boxes (boxes : List BoxD) : List Chunk :=
  match boxes with
  | [] => []
  | b0 :: rest => collapseGo rest b0.speaker [b0.text] [b0] 1 []

/-!
## Manual replacements (`src/eushlator/utils/manual_replacements.py`) and the
overlay step (`src/eushlator/process/reinsert.py`, `replace_manual_strings`)
-/

/-- Scanner of Python `str.replace(old, new)` for a non-empty pattern
`o :: os`: replace every non-overlapping occurrence, left to right.  The
`fuel` argument (initially the text length, an upper bound on the number of
steps, since every step consumes at least one character) only makes the
recursion structural; the `fuel = 0` branch is unreachable. -/
def replaceAllGo (o : Char) (os new : List Char) : Nat → List Char → List Char
  | 0, _ => []
  | _, [] => []
  | fuel + 1, c :: rest =>
    if (o :: os).isPrefixOf (c :: rest) then
      new ++ replaceAllGo o os new fuel (rest.drop os.length)
    else
      c :: replaceAllGo o os new fuel rest

/-- Python `str.replace(old, new)`.  An empty pattern inserts `new` into every
gap (CPython: `"ab".replace("", "-") = "-a-b-"`). -/
def replaceAll (old new l : List Char) : List Char :=
  match old with
  | [] => new ++ l.flatMap (fun c => c :: new)
  | o :: os => replaceAllGo o os new l.length l

/-- `replace_str` (manual_replacements.py lines 39-54): fold Python
`str.replace` over the items of the replacement dictionary.  The process-wide
`rep_dict` is passed explicitly as an association list in iteration order. -/
def replace_str (rep : List (List Char × List Char)) (txt : List Char) :
    List Char :=
  rep.foldl (fun t p => replaceAll p.1 p.2 t) txt

/-- Sanitisation of a differing set-string line (reinsert.py lines 206-211):
when the stripped edited line holds more than one quote, split it on `"`,
apply `replace_str` to the second-to-last segment, and rejoin; otherwise keep
the edited line as is. -/
def processEdited (rep : List (List Char × List Char)) (e : List Char) :
    List Char :=
  let t := trimL e
  if 1 < t.count '"' then
    let parts := t.splitOn '"'
    let j := parts.length - 2
    ['"'].intercalate (parts.set j (replace_str rep (parts.getD j [])))
  else e

/-- Loop of `replace_manual_strings` (reinsert.py lines 204-214), mirroring
`zip(final_en_script, edited_script)`. -/
def rmsGo (rep : List (List Char × List Char)) :
    List (List Char) → List (List Char) → List (List Char)
  | o :: os, e :: es =>
      (if o ≠ e ∧ startsWithL (strL "set-string") (trimL e) = true then
        processEdited rep e
      else o) :: rmsGo rep os es
  | _, _ => []

/-- `replace_manual_strings` (reinsert.py lines 179-216).  The length check is
performed before anything else; a mismatch raises `ValueError` (`none`). -/
def replace_manual_strings (rep : List (List Char × List Char))
    (finalScript editedScript : List (List Char)) : Option (List (List Char)) :=
  if finalScript.length ≠ editedScript.length then none
  else some (rmsGo rep finalScript editedScript)

theorem rmsGo_spec (rep : List (List Char × List Char)) :
    ∀ (fs es : List (List Char)), fs.length = es.length →
      (rmsGo rep fs es).length = fs.length ∧
      ∀ i, i < fs.length →
        (rmsGo rep fs es)[i]? =
          some (if fs.getD i [] ≠ es.getD i [] ∧
              startsWithL (strL "set-string") (trimL (es.getD i [])) = true
            then processEdited rep (es.getD i []) else fs.getD i []) := by
  intro fs
  induction fs with
  | nil =>
    intro es h
    exact ⟨by simp [rmsGo], by intro i hi; simp at hi⟩
  | cons o os ih =>
    intro es h
    cases es with
    | nil => simp at h
    | cons e es =>
      simp only [List.length_cons, Nat.succ_inj] at h
      obtain ⟨hlen, hidx⟩ := ih es h
      constructor
      · simp [rmsGo, hlen]
      · intro i hi
        cases i with
        | zero => simp [rmsGo]
        | succ n =>
          have hn : n < os.length := by simpa using hi
          simpa [rmsGo, List.getD_cons_succ] using hidx n hn

/-- Claim C9: `replace_manual_strings` fails exactly when the two scripts have
different line counts (and, being a pure function, produces no partially
replaced script in that case); on equal lengths the result has the same
length, positions where the edited line equals the original or does not
start (after stripping) with `set-string` keep the original line, and only
differing set-string lines are swapped for the edited variant (with the
manual replacements applied to its quoted payload). -/
theorem replace_manual_strings_spec (rep : List (List Char × List Char))
    (fs es : List (List Char)) :
    (replace_manual_strings rep fs es = none ↔ fs.length ≠ es.length) ∧
    ∀ res, replace_manual_strings rep fs es = some res →
      res.length = fs.length ∧
      ∀ i, i < fs.length →
        res[i]? =
          some (if fs.getD i [] ≠ es.getD i [] ∧
              startsWithL (strL "set-string") (trimL (es.getD i [])) = true
            then processEdited rep (es.getD i []) else fs.getD i []) := by
  constructor
  · unfold replace_manual_strings
    by_cases h : fs.length = es.length
    · rw [if_neg (by omega)]
      simp [h]
    · rw [if_pos (by omega)]
      simp [h]
  · intro res hres
    unfold replace_manual_strings at hres
    by_cases h : fs.length = es.length
    · rw [if_neg (by omega)] at hres
      obtain rfl : rmsGo rep fs es = res := by
        simpa using hres
      exact rmsGo_spec rep fs es h
    · rw [if_pos (by omega)] at hres
      exact absurd hres (by simp)

/-- Witness for C9 at a concrete input: a two-line overlay where line 0 is a
differing set-string line (swapped, payload rewritten by the replacement
dictionary) and line 1 is unchanged. -/
theorem replace_manual_strings_spec_witness :
    (rmsGo [(['x'], ['y'])]
        [strL "set-string (global-string 1) \"ax\"", strL "keep"]
        [strL "set-string (global-string 1) \"bx\"", strL "keep"]).length = 2 ∧
    (rmsGo [(['x'], ['y'])]
        [strL "set-string (global-string 1) \"ax\"", strL "keep"]
        [strL "set-string (global-string 1) \"bx\"", strL "keep"])[0]? =
      some (processEdited [(['x'], ['y'])]
        (strL "set-string (global-string 1) \"bx\"")) := by
  have h := replace_manual_strings_spec [(['x'], ['y'])]
    [strL "set-string (global-string 1) \"ax\"", strL "keep"]
    [strL "set-string (global-string 1) \"bx\"", strL "keep"]
  obtain ⟨hlen, hidx⟩ := h.2
    (rmsGo [(['x'], ['y'])]
      [strL "set-string (global-string 1) \"ax\"", strL "keep"]
      [strL "set-string (global-string 1) \"bx\"", strL "keep"])
    (by simp [replace_manual_strings])
  refine ⟨hlen, ?_⟩
  have h0 := hidx 0 (by simp)
  rw [h0]
  simp only [List.getD_cons_zero]
  rw [if_pos ⟨by decide, by decide⟩]

/-!
## Text Layout Engine reconciliation
(`src/eushlator/utils/text_box_utils.py`, `reconcile`)

A "container" is the list of sub-box strings produced for one JP line.
-/

/-- Python's post-build padding loop `for nc in new_containers: if not nc:
nc.append("")` (text_box_utils.py lines 160-163), applied per container. -/
def padContainer (c : List (List Char)) : List (List Char) :=
  if c = [] then [([] : List Char)] else c

/-- The even-redistribution loop of `reconcile` (text_box_utils.py lines
147-163): build `n` chunks from `flat`, the first `r` of size `d + 1`, the
rest of size `d`; a chunk that comes out empty receives a single empty-string
sub-box (Python pads with `""` after building; padding inline is
equivalent). -/
def chunkEven : List (List Char) → Nat → Nat → Nat → List (List (List Char))
  | _, 0, _, _ => []
  | flat, n + 1, d, r =>
    let size := if 0 < r then d + 1 else d
    padContainer (flat.take size) :: chunkEven (flat.drop size) n d (r - 1)

/-- `reconcile` (text_box_utils.py lines 113-175), functionally.  `none`
models the `IndexError` of Python `en_containers[-1]` on an empty list.  The
pop loop `new = [[last.pop(-1)] for _ in range(need)]; extend(reversed(new))`
keeps the first `len(last) - need` sub-boxes in the last container and turns
each of the dropped sub-boxes, in their original order, into a standalone
singleton container. -/
def reconcile (jp : List (List Char)) (cont : List (List (List Char))) :
    Option (List (List (List Char))) :=
  let jpLen := jp.length
  let contLen := cont.length
  if contLen < jpLen then
    match cont.getLast? with
    | none => none
    | some last =>
      let need := jpLen - contLen
      if need < last.length then
        some (cont.dropLast ++ [last.take (last.length - need)]
          ++ (last.drop (last.length - need)).map (fun b => [b]))
      else
        let flat := cont.flatten
        some (chunkEven flat jpLen (flat.length / jpLen) (flat.length % jpLen))
  else if jpLen < contLen then
    match (cont.take jpLen).getLast? with
    | none => none
    | some lastKept =>
        some ((cont.take jpLen).dropLast ++ [lastKept ++ (cont.drop jpLen).flatten])
  else some cont

theorem padContainer_ne_nil (c : List (List Char)) : padContainer c ≠ [] := by
  unfold padContainer
  split
  · simp
  · assumption

theorem chunkEven_length (flat : List (List Char)) (n d r : Nat) :
    (chunkEven flat n d r).length = n := by
  induction n generalizing flat r with
  | zero => rfl
  | succ n ih => simp [chunkEven, ih]

theorem chunkEven_ne_nil (flat : List (List Char)) (n d r : Nat) :
    ∀ c ∈ chunkEven flat n d r, c ≠ [] := by
  induction n generalizing flat r with
  | zero => intro c hc; simp [chunkEven] at hc
  | succ n ih =>
    intro c hc
    simp only [chunkEven, List.mem_cons] at hc
    rcases hc with rfl | hc
    · exact padContainer_ne_nil _
    · exact ih _ _ c hc

/-- Claim C2 counterexample: `reconcile` does not satisfy the claimed property
for all inputs.  With one JP box and one container that is already empty, the
count-match branch returns the container list unchanged, so the result holds
an empty container; and with one JP box and an empty container list the code
raises `IndexError` (`en_containers[-1]`) instead of returning a list. -/
theorem reconcile_counterexample :
    reconcile [['A']] [([] : List (List Char))] = some [([] : List (List Char))] ∧
    ¬ (∀ c ∈ ([[]] : List (List (List Char))), c ≠ []) ∧
    reconcile [['A']] [] = none := by
  refine ⟨by decide, by simp, by decide⟩

/-- Claim C2 (amended): provided every input container is non-empty and the
container list is empty exactly when `jpBoxes` is empty (both hold for every
call site: containers come from `correct_en_box`, which never returns an empty
container list or an empty container), `reconcile` returns a list whose length
equals `len(jpBoxes)` and no container in the result is empty (a container
that would be empty receives a single empty-string sub-box). -/
theorem reconcile_spec (jp : List (List Char)) (cont : List (List (List Char)))
    (hne : ∀ c ∈ cont, c ≠ []) (hiff : jp = [] ↔ cont = []) :
    ∃ res, reconcile jp cont = some res ∧
      res.length = jp.length ∧ ∀ c ∈ res, c ≠ [] := by
  unfold reconcile
  by_cases hlt : cont.length < jp.length
  · rw [if_pos hlt]
    have hcont : cont ≠ [] := by
      intro h
      rw [hiff.2 h] at hlt
      simp [h] at hlt
    obtain ⟨last, hlast⟩ := Option.isSome_iff_exists.1 (List.getLast?_isSome.2 hcont)
    rw [hlast]
    have hlastmem : last ∈ cont := List.mem_of_mem_getLast? hlast
    show ∃ res, (if jp.length - cont.length < last.length then
        some (cont.dropLast ++ [last.take (last.length - (jp.length - cont.length))]
          ++ (last.drop (last.length - (jp.length - cont.length))).map (fun b => [b]))
      else some (chunkEven cont.flatten jp.length (cont.flatten.length / jp.length)
        (cont.flatten.length % jp.length))) = some res ∧
      res.length = jp.length ∧ ∀ c ∈ res, c ≠ []
    by_cases hcarve : jp.length - cont.length < last.length
    · rw [if_pos hcarve]
      refine ⟨_, rfl, ?_, ?_⟩
      · have h1 : cont.dropLast.length = cont.length - 1 := List.length_dropLast cont
        have h2 : ((last.drop (last.length - (jp.length - cont.length))).map
            (fun b => [b])).length = jp.length - cont.length := by
          rw [List.length_map, List.length_drop]
          omega
        have h3 : 0 < cont.length := List.length_pos.2 hcont
        simp only [List.length_append, h1, h2, List.length_singleton]
        omega
      · intro c hc
        rcases List.mem_append.1 hc with hc | hc
        · rcases List.mem_append.1 hc with hc | hc
          · exact hne c ((List.dropLast_sublist cont).subset hc)
          · rcases List.mem_singleton.1 hc with rfl
            have : (last.take (last.length - (jp.length - cont.length))).length =
                last.length - (jp.length - cont.length) := by
              rw [List.length_take]
              omega
            intro hnil
            rw [hnil] at this
            simp at this
            omega
        · obtain ⟨b, _, rfl⟩ := List.mem_map.1 hc
          simp
    · rw [if_neg hcarve]
      exact ⟨_, rfl, chunkEven_length _ _ _ _, chunkEven_ne_nil _ _ _ _⟩
  · rw [if_neg hlt]
    by_cases hgt : jp.length < cont.length
    · rw [if_pos hgt]
      have hjp : jp ≠ [] := by
        intro h
        have := hiff.1 h
        rw [h, this] at hgt
        simp at hgt
      have htake : cont.take jp.length ≠ [] := by
        have : (cont.take jp.length).length = jp.length := by
          rw [List.length_take]
          omega
        intro hnil
        rw [hnil] at this
        simp at this
        exact hjp (List.length_eq_zero.1 this.symm)
      obtain ⟨lk, hlk⟩ := Option.isSome_iff_exists.1 (List.getLast?_isSome.2 htake)
      rw [hlk]
      show ∃ res, some ((cont.take jp.length).dropLast
          ++ [lk ++ (cont.drop jp.length).flatten]) = some res ∧
        res.length = jp.length ∧ ∀ c ∈ res, c ≠ []
      refine ⟨_, rfl, ?_, ?_⟩
      · have h1 : (cont.take jp.length).dropLast.length =
            (cont.take jp.length).length - 1 := List.length_dropLast _
        have h2 : (cont.take jp.length).length = jp.length := by
          rw [List.length_take]; omega
        have h3 : 0 < jp.length := List.length_pos.2 hjp
        simp only [List.length_append, h1, h2, List.length_singleton]
        omega
      · intro c hc
        rcases List.mem_append.1 hc with hc | hc
        · exact hne c (List.take_subset _ _
            ((List.dropLast_sublist _).subset hc))
        · rcases List.mem_singleton.1 hc with rfl
          have hlkmem : lk ∈ cont :=
            List.take_subset _ _ (List.mem_of_mem_getLast? hlk)
          have := hne lk hlkmem
          intro hnil
          exact this (List.append_eq_nil.1 hnil).1
    · rw [if_neg hgt]
      refine ⟨cont, rfl, by omega, hne⟩

/-- Witness for C2 at a concrete input (the source's own doctest case (b)):
three JP boxes, one container of four sub-boxes. -/
theorem reconcile_spec_witness :
    ∃ res, reconcile [['A'], ['B'], ['C']] [[['x'], ['y'], ['z'], ['w']]] = some res ∧
      res.length = ([['A'], ['B'], ['C']] : List (List Char)).length ∧
      ∀ c ∈ res, c ≠ [] :=
  reconcile_spec [['A'], ['B'], ['C']] [[['x'], ['y'], ['z'], ['w']]]
    (by decide) (by decide)

/-!
## Text Layout Engine wrapping
(`src/eushlator/utils/text_box_utils.py`, `is_wide_char`, `measure_text_width`,
`correct_en_box`)
-/

/-- `is_wide_char` (text_box_utils.py lines 25-53). -/
def is_wide_char (ch : Char) : Bool :=
  let code := ch.toNat
  decide ((0xE000 ≤ code ∧ code ≤ 0xF8FF) ∨
    (0xF0000 ≤ code ∧ code ≤ 0xFFFFD) ∨
    (0x100000 ≤ code ∧ code ≤ 0x10FFFD) ∨
    (0x3000 ≤ code ∧ code ≤ 0x303F) ∨
    (0x3040 ≤ code ∧ code ≤ 0x309F) ∨
    (0x30A0 ≤ code ∧ code ≤ 0x30FF) ∨
    (0x4E00 ≤ code ∧ code ≤ 0x9FFF) ∨
    (0xF900 ≤ code ∧ code ≤ 0xFAFF) ∨
    (0xFF01 ≤ code ∧ code ≤ 0xFF60) ∨
    (0xFFE0 ≤ code ∧ code ≤ 0xFFE6) ∨
    code = 0x2014 ∨ code = 0x2015 ∨ code = 0x301C)

/-- `measure_text_width` (text_box_utils.py lines 56-58): wide chars count 2,
others 1. -/
def measure_text_width (s : List Char) : Nat :=
  (s.map (fun ch => if is_wide_char ch then 2 else 1)).sum

/-- Loop of `correct_en_box` (text_box_utils.py lines 89-109).  `boxes` and
`lines` mirror the Python locals; `lines.getLast?` is Python `lines[-1]`
guarded by `if not lines`; a finished box is the `"\n".join` of its lines. -/
def cebGo (maxLines maxChars : Nat) :
    List (List Char) → List (List Char) → List (List Char) → List (List Char)
  | [], boxes, lines =>
      boxes ++ (if lines = [] then [] else [['\n'].intercalate lines])
  | w :: ws, boxes, lines =>
    match lines.getLast? with
    | none => cebGo maxLines maxChars ws boxes [w]
    | some last =>
      let candidate := last ++ ' ' :: w
      if measure_text_width candidate ≤ maxChars then
        cebGo maxLines maxChars ws boxes (lines.dropLast ++ [candidate])
      else if lines.length < maxLines then
        cebGo maxLines maxChars ws boxes (lines ++ [w])
      else
        cebGo maxLines maxChars ws (boxes ++ [['\n'].intercalate lines]) [w]

/-- `correct_en_box` (text_box_utils.py lines 61-110): greedy word wrap of
`en_box.split(" ")` into sub-boxes of at most `max_lines` lines. -/
def correct_en_box (en_box : List Char) (max_lines max_chars_per_line : Nat) :
    List (List Char) :=
  cebGo max_lines max_chars_per_line (en_box.splitOn ' ') [] []

/-- A produced sub-box respects the budget: at most `maxLines` display lines,
each of visual width at most `maxChars`. -/
def boxFits (maxLines maxChars : Nat) (b : List Char) : Prop :=
  (b.splitOn '\n').length ≤ maxLines ∧
  ∀ l ∈ b.splitOn '\n', measure_text_width l ≤ maxChars

theorem mem_intersperse_of_mem {α : Type} (sep : α) {a : α} :
    ∀ {l : List α}, a ∈ l → a ∈ l.intersperse sep := by
  intro l
  induction l with
  | nil => intro h; simp at h
  | cons x t ih =>
    intro h
    cases t with
    | nil => simpa using h
    | cons y t' =>
      rcases List.mem_cons.1 h with rfl | h
      · simp [List.intersperse]
      · simp only [List.intersperse, List.mem_cons]
        exact Or.inr (Or.inr (ih h))

theorem mem_of_mem_splitOn {x a : Char} {w l : List Char}
    (hw : w ∈ l.splitOn x) (ha : a ∈ w) : a ∈ l := by
  have h := List.intercalate_splitOn l x
  rw [← h]
  unfold List.intercalate
  exact List.mem_flatten.2 ⟨w, mem_intersperse_of_mem _ hw, ha⟩

theorem flush_boxFits (maxLines maxChars : Nat) (lines : List (List Char))
    (hne : lines ≠ []) (hlen : lines.length ≤ maxLines)
    (hl : ∀ l ∈ lines, measure_text_width l ≤ maxChars ∧ '\n' ∉ l) :
    boxFits maxLines maxChars (['\n'].intercalate lines) := by
  have hsplit : (['\n'].intercalate lines).splitOn '\n' = lines :=
    List.splitOn_intercalate lines '\n' (fun l hl' => (hl l hl').2) hne
  constructor
  · rw [hsplit]; exact hlen
  · rw [hsplit]; exact fun l h => (hl l h).1

theorem cebGo_boxFits (maxLines maxChars : Nat) (hL : 1 ≤ maxLines) :
    ∀ (ws boxes lines : List (List Char)),
      (∀ b ∈ boxes, boxFits maxLines maxChars b) →
      lines.length ≤ maxLines →
      (∀ l ∈ lines, measure_text_width l ≤ maxChars ∧ '\n' ∉ l) →
      (∀ w ∈ ws, measure_text_width w ≤ maxChars ∧ '\n' ∉ w) →
      ∀ b ∈ cebGo maxLines maxChars ws boxes lines, boxFits maxLines maxChars b := by
  intro ws
  induction ws with
  | nil =>
    intro boxes lines hboxes hlen hl _ b hb
    simp only [cebGo] at hb
    rcases List.mem_append.1 hb with hb | hb
    · exact hboxes b hb
    · by_cases hnil : lines = []
      · rw [if_pos hnil] at hb; simp at hb
      · rw [if_neg hnil] at hb
        rcases List.mem_singleton.1 hb with rfl
        exact flush_boxFits maxLines maxChars lines hnil hlen hl
  | cons w ws ih =>
    intro boxes lines hboxes hlen hl hws b hb
    have hw := hws w (List.mem_cons_self w ws)
    have hws' : ∀ w' ∈ ws, measure_text_width w' ≤ maxChars ∧ '\n' ∉ w' :=
      fun w' h => hws w' (List.mem_cons_of_mem w h)
    simp only [cebGo] at hb
    cases hlast : lines.getLast? with
    | none =>
      rw [hlast] at hb
      refine ih boxes [w] hboxes (by simpa using hL) ?_ hws' b hb
      intro l h
      rcases List.mem_singleton.1 h with rfl
      exact hw
    | some last =>
      rw [hlast] at hb
      have hlinesne : lines ≠ [] := by
        intro h; rw [h] at hlast; simp at hlast
      have hlastmem : last ∈ lines := List.mem_of_mem_getLast? hlast
      simp only at hb
      by_cases hfit : measure_text_width (last ++ ' ' :: w) ≤ maxChars
      · rw [if_pos hfit] at hb
        refine ih boxes (lines.dropLast ++ [last ++ ' ' :: w]) hboxes ?_ ?_ hws' b hb
        · have h1 := List.length_dropLast lines
          have h2 : 0 < lines.length := List.length_pos.2 hlinesne
          simp only [List.length_append, h1, List.length_singleton]
          omega
        · intro l h
          rcases List.mem_append.1 h with h | h
          · exact hl l ((List.dropLast_sublist lines).subset h)
          · rcases List.mem_singleton.1 h with rfl
            refine ⟨hfit, ?_⟩
            intro hmem
            rcases List.mem_append.1 hmem with hmem | hmem
            · exact (hl last hlastmem).2 hmem
            · rcases List.mem_cons.1 hmem with h' | hmem
              · exact absurd h' (by decide)
              · exact hw.2 hmem
      · rw [if_neg hfit] at hb
        by_cases hroom : lines.length < maxLines
        · rw [if_pos hroom] at hb
          refine ih boxes (lines ++ [w]) hboxes ?_ ?_ hws' b hb
          · simp only [List.length_append, List.length_singleton]; omega
          · intro l h
            rcases List.mem_append.1 h with h | h
            · exact hl l h
            · rcases List.mem_singleton.1 h with rfl
              exact hw
        · rw [if_neg hroom] at hb
          refine ih (boxes ++ [['\n'].intercalate lines]) [w] ?_
            (by simpa using hL) ?_ hws' b hb
          · intro b' hb'
            rcases List.mem_append.1 hb' with hb' | hb'
            · exact hboxes b' hb'
            · rcases List.mem_singleton.1 hb' with rfl
              exact flush_boxFits maxLines maxChars lines hlinesne hlen hl
          · intro l h
            rcases List.mem_singleton.1 h with rfl
            exact hw

/-- Claim C3 counterexample: the wrap invariant fails as stated.  A single
word wider than the budget is emitted on one line of width 4 > 3
(`correct_en_box` never splits inside a word), and an input containing a
newline yields a sub-box with 2 display lines although `maxLines = 1`. -/
theorem correct_en_box_counterexample :
    correct_en_box (strL "aaaa") 1 3 = [strL "aaaa"] ∧
    measure_text_width (strL "aaaa") = 4 ∧
    ¬ (∀ b ∈ correct_en_box (strL "aaaa") 1 3,
        ∀ l ∈ b.splitOn '\n', measure_text_width l ≤ 3) ∧
    correct_en_box ['a', '\n', 'b'] 1 3 = [['a', '\n', 'b']] ∧
    ¬ (∀ b ∈ correct_en_box ['a', '\n', 'b'] 1 3,
        (b.splitOn '\n').length ≤ 1) := by decide

/-- Claim C3 (amended): for `maxLines ≥ 1` and `maxCharsPerLine ≥ 1`, and
provided every space-separated word of the input fits the width budget and
the input contains no newline character (the caller wraps one line of the
translation at a time), every sub-box returned by `correct_en_box` has at
most `maxLines` display lines, and every display line has visual width at
most `maxCharsPerLine` (wide chars counted as 2 by `measure_text_width`). -/
theorem correct_en_box_spec (en_box : List Char) (maxLines maxChars : Nat)
    (hL : 1 ≤ maxLines) (_hC : 1 ≤ maxChars)
    (hw : ∀ w ∈ en_box.splitOn ' ', measure_text_width w ≤ maxChars)
    (hn : '\n' ∉ en_box) :
    ∀ b ∈ correct_en_box en_box maxLines maxChars,
      (b.splitOn '\n').length ≤ maxLines ∧
      ∀ l ∈ b.splitOn '\n', measure_text_width l ≤ maxChars := by
  intro b hb
  have h := cebGo_boxFits maxLines maxChars hL (en_box.splitOn ' ') [] []
    (by intro b' h'; simp at h') (by simp) (by intro l h'; simp at h')
    (by
      intro w hmem
      exact ⟨hw w hmem, fun hc => hn (mem_of_mem_splitOn hmem hc)⟩)
    b hb
  exact ⟨h.1, h.2⟩

/-- Witness for C3 at a concrete input: `"ab cd"` with a 2-line, width-2
budget wraps into the single sub-box `"ab\ncd"`, whose line count and first
line's width are within budget. -/
theorem correct_en_box_spec_witness :
    (((['a', 'b', '\n', 'c', 'd'] : List Char)).splitOn '\n').length ≤ 2 ∧
    measure_text_width (strL "ab") ≤ 2 :=
  ⟨(correct_en_box_spec (strL "ab cd") 2 2 (by decide) (by decide) (by decide)
      (by decide) ['a', 'b', '\n', 'c', 'd'] (by decide)).1,
   (correct_en_box_spec (strL "ab cd") 2 2 (by decide) (by decide) (by decide)
      (by decide) ['a', 'b', '\n', 'c', 'd'] (by decide)).2 (strL "ab")
      (by decide)⟩

/-!
## Code Generator, concat-continuation variant
(`src/eushlator/utils/code_utils.py`, `create_text_box_code_concat`)
-/

/-- code_utils.py line 24: the character replaced inside string literals. -/
def shitter : Char := '"'

/-- code_utils.py line 25: its safe substitute. -/
def safe_shitter : Char := '\''

/-- The f-string `show-text 0 "{l}"` of code_utils.py line 137 (the payload is
the line verbatim). -/
def showTextIns (l : List Char) : List Char :=
  strL "show-text 0 \"" ++ l ++ ['"']

/-- The f-string `concat (global-string bbb) (global-string bbb) "{payload}"`
of code_utils.py line 138. -/
def concatIns (l : List Char) : List Char :=
  strL "concat (global-string bbb) (global-string bbb) \"" ++ l ++ ['"']

/-- The `end-text-line 0` instruction (code_utils.py line 139). -/
def endTextLineIns : List Char := strL "end-text-line 0"

/-- The three lines appended per displayed line in the concat variant
(code_utils.py lines 136-139): show-text with the raw line, concat with the
quote-sanitised line, end-text-line. -/
def concatTriple (l : List Char) : List (List Char) :=
  [showTextIns l, concatIns (replaceAll [shitter] [safe_shitter] l), endTextLineIns]

/-- One iteration of the `create_text_box_code_concat` loop body
(code_utils.py lines 133-148), acting on the accumulated `final_code`:
append the spacer, append the per-line triples, drop the trailing
`end-text-line` (`final_code = final_code[:-1]`), append the spacer, and for
a non-final box replace that spacer by a bare `end-text-line`. -/
def ccStep (box : List Char) (b total : Nat) (acc : List (List Char)) :
    List (List Char) :=
  let lines := box.splitOn '\n'
  let acc1 := acc ++ [[]]
  let acc2 := acc1 ++ (lines.map concatTriple).flatten
  let acc3 := acc2.dropLast
  let acc4 := acc3 ++ [[]]
  if b ≠ total - 1 then acc4.dropLast ++ [endTextLineIns] else acc4

/-- Loop of `create_text_box_code_concat` over `enumerate(en_box)`. -/
def ccGo : List (List Char) → Nat → Nat → List (List Char) → List (List Char)
  | [], _, _, acc => acc
  | box :: rest, b, total, acc => ccGo rest (b + 1) total (ccStep box b total acc)

/-- `create_text_box_code_concat` (code_utils.py lines 120-149). -/
def create_text_box_code_concat (en_box : List (List Char)) : List (List Char) :=
  ccGo en_box 0 en_box.length []

theorem splitOn_char_ne_nil (x : Char) (l : List Char) : l.splitOn x ≠ [] := by
  unfold List.splitOn
  exact List.splitOnP_ne_nil _ _

theorem concatTriple_flatten_ne_nil (lines : List (List Char))
    (h : lines ≠ []) : (lines.map concatTriple).flatten ≠ [] := by
  cases lines with
  | nil => exact absurd rfl h
  | cons l ls => simp [concatTriple]

/-- Canonical form of one loop iteration: the accumulator survives intact,
followed by the spacer, the line triples minus their trailing
`end-text-line`, and the trailer (a spacer for the last box, a bare
`end-text-line` otherwise). -/
theorem ccStep_eq (box : List Char) (b total : Nat) (acc : List (List Char)) :
    ccStep box b total acc =
      acc ++ [[]] ++ ((box.splitOn '\n').map concatTriple).flatten.dropLast
        ++ [if b ≠ total - 1 then endTextLineIns else []] := by
  have hJ : ((box.splitOn '\n').map concatTriple).flatten ≠ [] :=
    concatTriple_flatten_ne_nil _ (splitOn_char_ne_nil '\n' box)
  simp only [ccStep]
  rw [List.dropLast_append_of_ne_nil (acc ++ [[]]) hJ]
  by_cases hb : b ≠ total - 1
  · rw [if_pos hb, if_pos hb,
      List.dropLast_append_of_ne_nil
        ((acc ++ [[]]) ++ ((box.splitOn '\n').map concatTriple).flatten.dropLast)
        (by simp)]
    simp
  · rw [if_neg hb, if_neg hb]

/-- Elements of the accumulator survive the rest of the `ccGo` loop: the two
truncations per iteration only remove elements appended in that iteration. -/
theorem ccGo_mem_acc (rest : List (List Char)) (b total : Nat)
    (acc : List (List Char)) (x : List Char) (hx : x ∈ acc) :
    x ∈ ccGo rest b total acc := by
  induction rest generalizing b acc with
  | nil => exact hx
  | cons box rest ih =>
    simp only [ccGo]
    refine ih _ _ ?_
    rw [ccStep_eq]
    exact List.mem_append.2 (Or.inl (List.mem_append.2 (Or.inl
      (List.mem_append.2 (Or.inl hx)))))

/-- Both per-line instructions survive the removal of the box's trailing
`end-text-line` (`final_code = final_code[:-1]`, code_utils.py line 141). -/
theorem concatTriple_mem_dropLast (lines : List (List Char)) (l : List Char)
    (hl : l ∈ lines) :
    showTextIns l ∈ ((lines.map concatTriple).flatten).dropLast ∧
    concatIns (replaceAll [shitter] [safe_shitter] l) ∈
      ((lines.map concatTriple).flatten).dropLast := by
  induction lines with
  | nil => simp at hl
  | cons a t ih =>
    cases t with
    | nil =>
      rcases List.mem_singleton.1 hl with rfl
      simp [concatTriple]
    | cons a2 t2 =>
      have hflat : ((a2 :: t2).map concatTriple).flatten ≠ [] :=
        concatTriple_flatten_ne_nil _ (by simp)
      have hstep : (((a :: a2 :: t2).map concatTriple).flatten).dropLast
          = concatTriple a ++ (((a2 :: t2).map concatTriple).flatten).dropLast := by
        simp only [List.map_cons, List.flatten_cons]
        exact List.dropLast_append_of_ne_nil _ hflat
      rcases List.mem_cons.1 hl with rfl | hl
      · rw [hstep]
        constructor
        · exact List.mem_append.2 (Or.inl (by simp [concatTriple]))
        · exact List.mem_append.2 (Or.inl (by simp [concatTriple]))
      · obtain ⟨h1, h2⟩ := ih hl
        rw [hstep]
        exact ⟨List.mem_append.2 (Or.inr h1), List.mem_append.2 (Or.inr h2)⟩

/-- If the pattern head never occurs in the text, Python `str.replace` leaves
the text unchanged. -/
theorem replaceAllGo_of_not_mem (o : Char) (os new : List Char) :
    ∀ (fuel : Nat) (l : List Char), l.length ≤ fuel → o ∉ l →
      replaceAllGo o os new fuel l = l := by
  intro fuel
  induction fuel with
  | zero =>
    intro l hlen _
    obtain rfl : l = [] := List.length_eq_zero.1 (by omega)
    simp [replaceAllGo]
  | succ fuel ih =>
    intro l hlen h
    cases l with
    | nil => simp [replaceAllGo]
    | cons c rest =>
      have hoc : ¬ o = c := fun hc => h (hc ▸ List.mem_cons_self c rest)
      have hcond : ¬ ((o :: os).isPrefixOf (c :: rest) = true) := by
        intro hp
        rw [show (o :: os).isPrefixOf (c :: rest) = (o == c && os.isPrefixOf rest)
            from rfl, Bool.and_eq_true] at hp
        exact hoc (by simpa using hp.1)
      simp only [replaceAllGo]
      rw [if_neg hcond,
        ih rest (by simpa using hlen) (fun hm => h (List.mem_cons_of_mem c hm))]

theorem ccGo_mem_ins (box l : List Char) :
    ∀ (rest : List (List Char)) (b total : Nat) (acc : List (List Char)),
      box ∈ rest → l ∈ box.splitOn '\n' →
      showTextIns l ∈ ccGo rest b total acc ∧
      concatIns (replaceAll [shitter] [safe_shitter] l) ∈ ccGo rest b total acc := by
  intro rest
  induction rest with
  | nil => intro b total acc hbox _; simp at hbox
  | cons bx rest ih =>
    intro b total acc hbox hl
    rcases List.mem_cons.1 hbox with rfl | hbox
    · obtain ⟨h1, h2⟩ := concatTriple_mem_dropLast (box.splitOn '\n') l hl
      simp only [ccGo]
      constructor
      · refine ccGo_mem_acc _ _ _ _ _ ?_
        rw [ccStep_eq]
        exact List.mem_append.2 (Or.inl (List.mem_append.2 (Or.inr h1)))
      · refine ccGo_mem_acc _ _ _ _ _ ?_
        rw [ccStep_eq]
        exact List.mem_append.2 (Or.inl (List.mem_append.2 (Or.inr h2)))
    · simp only [ccGo]
      exact ih (b + 1) total _ hbox hl

/-- Claim C5 counterexample: for a sub-box consisting of a single quote
character, the emitted concat instruction carries the sanitised text `'` but
the emitted show-text instruction carries the raw quote verbatim; the
sanitised show-text instruction the claim requires appears nowhere in the
output. -/
theorem create_text_box_code_concat_counterexample :
    create_text_box_code_concat [[shitter]] =
      [[], showTextIns [shitter], concatIns [safe_shitter], []] ∧
    showTextIns [safe_shitter] ∉ create_text_box_code_concat [[shitter]] := by
  have hsan : replaceAll [shitter] [safe_shitter] [shitter] = [safe_shitter] := by
    decide
  have htrip : concatTriple [shitter] =
      [showTextIns [shitter], concatIns [safe_shitter], endTextLineIns] := by
    unfold concatTriple
    rw [hsan]
  have heq : create_text_box_code_concat [[shitter]] =
      [[], showTextIns [shitter], concatIns [safe_shitter], []] := by
    show ccGo [[shitter]] 0 1 [] = _
    simp only [ccGo]
    rw [ccStep_eq,
      show ([shitter] : List Char).splitOn '\n' = [[shitter]] from by decide,
      List.map_singleton, htrip]
    rfl
  refine ⟨heq, ?_⟩
  rw [heq]
  decide

/-- Claim C5 (amended): in the concat-continuation variant, for every line of
every sub-box the output contains a show-text instruction carrying the line
verbatim and a concatenate-into-accumulator instruction carrying the
sanitised line (every `"` replaced by `'`); the two carry the same text
exactly when the line contains no double quote (then sanitisation is the
identity). -/
theorem create_text_box_code_concat_spec (en_box : List (List Char))
    (box l : List Char) (hbox : box ∈ en_box) (hl : l ∈ box.splitOn '\n') :
    showTextIns l ∈ create_text_box_code_concat en_box ∧
    concatIns (replaceAll [shitter] [safe_shitter] l) ∈
      create_text_box_code_concat en_box ∧
    (shitter ∉ l → replaceAll [shitter] [safe_shitter] l = l) := by
  obtain ⟨h1, h2⟩ := ccGo_mem_ins box l en_box 0 en_box.length [] hbox hl
  exact ⟨h1, h2, fun hq =>
    replaceAllGo_of_not_mem shitter [] [safe_shitter] l.length l (le_refl _) hq⟩

/-- Witness for C5 at a concrete input: the single sub-box `"hi"`. -/
theorem create_text_box_code_concat_spec_witness :
    showTextIns ['h', 'i'] ∈ create_text_box_code_concat [['h', 'i']] ∧
    concatIns (replaceAll [shitter] [safe_shitter] ['h', 'i']) ∈
      create_text_box_code_concat [['h', 'i']] ∧
    (shitter ∉ (['h', 'i'] : List Char) →
      replaceAll [shitter] [safe_shitter] ['h', 'i'] = ['h', 'i']) :=
  create_text_box_code_concat_spec [['h', 'i']] ['h', 'i'] ['h', 'i']
    (by decide) (by decide)

/-!
## Script Splicer (`src/eushlator/process/reinsert.py`, `craft_into_script`,
splice loop of lines 151-176)
-/

/-- `TEXT_CMDS`, the whitelist of lines that belong inside a text box after
its start; the same tuple is defined in reinsert.py lines 35-41 and in
extract_dialogue.py lines 18-24. -/
def TEXT_CMDS : List (List Char) :=
  [strL "show-text 0", strL "display-furigana 0", strL "wait-for-input 0",
   strL "end-text-line 0", strL "concat"]

/-- `any(script[i].strip().startswith(cmd) for cmd in TEXT_CMDS)`. -/
def isTextCmd (l : List Char) : Bool :=
  TEXT_CMDS.any (fun c => c.isPrefixOf (trimL l))

/-- The inner `while True` of the splice loop (reinsert.py lines 162-167),
scanning `script.drop i` so the recursion is structural: return the first
index `≥ i` whose line fails the whitelist; `none` models running past the
end of the script (Python `IndexError`). -/
def findBoxEndAux : List (List Char) → Nat → Option Nat
  | [], _ => none
  | l :: ls, i => if isTextCmd l then findBoxEndAux ls (i + 1) else some i

def findBoxEnd (script : List (List Char)) (i : Nat) : Option Nat :=
  findBoxEndAux (script.drop i) i

/-- One iteration of the splice loop of `craft_into_script` (reinsert.py
lines 155-174): resolve the box start at `position + offset`, scan from
`start + 1` for the exclusive end of the box body, splice the generated
lines over `[start+1, end)`, and return the new cursor
`len(en_lines) + text_box_start`. -/
def spliceStep (script : List (List Char)) (position offset : Nat)
    (enLines : List (List Char)) : Option (Nat × List (List Char)) :=
  let start := position + offset
  match findBoxEnd script (start + 1) with
  | none => none
  | some e =>
      some (enLines.length + start,
        script.take (start + 1) ++ enLines ++ script.drop e)

/-- The splice loop over the chunk's boxes, each contributing its offset and
its pre-generated instruction block (`code_map[i]`). -/
def craft_splice_loop :
    List (Nat × List (List Char)) → Nat → List (List Char) →
      Option (Nat × List (List Char))
  | [], position, script => some (position, script)
  | (offset, enLines) :: rest, position, script =>
    match spliceStep script position offset enLines with
    | none => none
    | some (p, s) => craft_splice_loop rest p s

theorem findBoxEndAux_spec (script : List (List Char)) :
    ∀ (suffix : List (List Char)) (i e : Nat), suffix = script.drop i →
      findBoxEndAux suffix i = some e →
      i ≤ e ∧ e < script.length ∧ isTextCmd (script.getD e []) = false ∧
      ∀ j, i ≤ j → j < e → isTextCmd (script.getD j []) = true := by
  intro suffix
  induction suffix with
  | nil => intro i e _ h; simp [findBoxEndAux] at h
  | cons l ls ih =>
    intro i e hsuf h
    have hi : i < script.length := by
      by_contra hge
      rw [List.drop_eq_nil_of_le (by omega)] at hsuf
      exact List.cons_ne_nil l ls hsuf
    have hdec := List.drop_eq_getElem_cons hi
    rw [hdec] at hsuf
    obtain ⟨hl, hls⟩ := List.cons.inj hsuf
    have hgetD : script.getD i [] = l := by
      rw [hl]
      exact List.getD_eq_getElem script [] hi
    simp only [findBoxEndAux] at h
    by_cases hcmd : isTextCmd l = true
    · rw [if_pos hcmd] at h
      obtain ⟨h1, h2, h3, h4⟩ := ih (i + 1) e hls h
      refine ⟨by omega, h2, h3, ?_⟩
      intro j hj1 hj2
      rcases Nat.eq_or_lt_of_le hj1 with rfl | hj
      · rw [hgetD]; exact hcmd
      · exact h4 j hj hj2
    · rw [if_neg hcmd] at h
      obtain rfl : i = e := by simpa using h
      refine ⟨le_refl i, hi, ?_, ?_⟩
      · rw [hgetD]; exact Bool.not_eq_true _ ▸ (by simpa using hcmd)
      · intro j hj1 hj2; omega

theorem findBoxEndAux_exists (script : List (List Char)) :
    ∀ (suffix : List (List Char)) (i : Nat), suffix = script.drop i →
      (∃ j, i ≤ j ∧ j < script.length ∧ isTextCmd (script.getD j []) = false) →
      ∃ e, findBoxEndAux suffix i = some e := by
  intro suffix
  induction suffix with
  | nil =>
    intro i hsuf hex
    obtain ⟨j, hj1, hj2, _⟩ := hex
    have : script.drop i ≠ [] := by
      apply List.ne_nil_of_length_pos
      rw [List.length_drop]
      omega
    exact absurd hsuf.symm this
  | cons l ls ih =>
    intro i hsuf hex
    have hi : i < script.length := by
      by_contra hge
      rw [List.drop_eq_nil_of_le (by omega)] at hsuf
      exact List.cons_ne_nil l ls hsuf
    have hdec := List.drop_eq_getElem_cons hi
    rw [hdec] at hsuf
    obtain ⟨hl, hls⟩ := List.cons.inj hsuf
    have hgetD : script.getD i [] = l := by
      rw [hl]
      exact List.getD_eq_getElem script [] hi
    by_cases hcmd : isTextCmd l = true
    · have hex' : ∃ j, i + 1 ≤ j ∧ j < script.length ∧
          isTextCmd (script.getD j []) = false := by
        obtain ⟨j, hj1, hj2, hj3⟩ := hex
        refine ⟨j, ?_, hj2, hj3⟩
        rcases Nat.eq_or_lt_of_le hj1 with rfl | hj
        · rw [hgetD] at hj3; rw [hcmd] at hj3; exact absurd hj3 (by simp)
        · omega
      obtain ⟨e, he⟩ := ih (i + 1) hls hex'
      exact ⟨e, by simp only [findBoxEndAux, hcmd, ite_true]; exact he⟩
    · have hf : isTextCmd l = false := by simpa using hcmd
      exact ⟨i, by simp [findBoxEndAux, hf]⟩

/-- Claim C1: for a box processed by the Script Splicer with inherited cursor
`p`, offset `d` and generated block `g`, under the precondition that some
line after the box start `s = p + d` fails the text-content whitelist: `s`
is never before `p` (offsets are non-negative, see C7); the slice
`[s+1, e)` — `e` the first index after `s` whose line fails the whitelist —
is replaced by `g`; the marker line at `s` and everything before it are
unchanged; and the cursor handed to the next box is `s + len(g)`. -/
theorem craft_splice_step_spec (script : List (List Char)) (p d : Nat)
    (g : List (List Char)) (rest : List (Nat × List (List Char)))
    (hwit : ∃ j, p + d < j ∧ j < script.length ∧
      isTextCmd (script.getD j []) = false) :
    p ≤ p + d ∧
    ∃ e, p + d + 1 ≤ e ∧ e < script.length ∧
      isTextCmd (script.getD e []) = false ∧
      (∀ j, p + d + 1 ≤ j → j < e → isTextCmd (script.getD j []) = true) ∧
      spliceStep script p d g =
        some (p + d + g.length, script.take (p + d + 1) ++ g ++ script.drop e) ∧
      (script.take (p + d + 1) ++ g ++ script.drop e).take (p + d + 1) =
        script.take (p + d + 1) ∧
      craft_splice_loop ((d, g) :: rest) p script =
        craft_splice_loop rest (p + d + g.length)
          (script.take (p + d + 1) ++ g ++ script.drop e) := by
  refine ⟨Nat.le_add_right p d, ?_⟩
  obtain ⟨e, he⟩ := findBoxEndAux_exists script (script.drop (p + d + 1))
    (p + d + 1) rfl (by
      obtain ⟨j, hj1, hj2, hj3⟩ := hwit
      exact ⟨j, by omega, hj2, hj3⟩)
  obtain ⟨h1, h2, h3, h4⟩ :=
    findBoxEndAux_spec script (script.drop (p + d + 1)) (p + d + 1) e rfl he
  have hfind : findBoxEnd script (p + d + 1) = some e := he
  have hstep : spliceStep script p d g =
      some (p + d + g.length, script.take (p + d + 1) ++ g ++ script.drop e) := by
    simp only [spliceStep]
    rw [hfind]
    show some (g.length + (p + d), script.take (p + d + 1) ++ g ++ script.drop e) = _
    rw [Nat.add_comm g.length (p + d)]
  have htakelen : (script.take (p + d + 1)).length = p + d + 1 := by
    rw [List.length_take]
    omega
  refine ⟨e, h1, h2, h3, h4, hstep, ?_, ?_⟩
  · rw [List.append_assoc, List.take_left' htakelen]
  · show (match spliceStep script p d g with
      | none => none
      | some (p', s') => craft_splice_loop rest p' s') = _
    rw [hstep]

/-- Witness for C1 at a concrete input: a marker line followed by one
whitelisted line and a closing `ret`; the splice replaces the box body with
a two-line block and returns cursor `0 + 0 + 2`. -/
theorem craft_splice_step_spec_witness :
    (0 : Nat) ≤ 0 + 0 ∧
    ∃ e, 0 + 0 + 1 ≤ e ∧
      e < ([strL "u00416120", strL "show-text 0 \"x\"", strL "ret"] :
        List (List Char)).length ∧
      isTextCmd (([strL "u00416120", strL "show-text 0 \"x\"", strL "ret"] :
        List (List Char)).getD e []) = false ∧
      (∀ j, 0 + 0 + 1 ≤ j → j < e →
        isTextCmd (([strL "u00416120", strL "show-text 0 \"x\"", strL "ret"] :
          List (List Char)).getD j []) = true) ∧
      spliceStep [strL "u00416120", strL "show-text 0 \"x\"", strL "ret"] 0 0
          [strL "A", strL "B"] =
        some (0 + 0 + ([strL "A", strL "B"] : List (List Char)).length,
          ([strL "u00416120", strL "show-text 0 \"x\"", strL "ret"] :
            List (List Char)).take (0 + 0 + 1) ++ [strL "A", strL "B"] ++
          ([strL "u00416120", strL "show-text 0 \"x\"", strL "ret"] :
            List (List Char)).drop e) ∧
      (([strL "u00416120", strL "show-text 0 \"x\"", strL "ret"] :
          List (List Char)).take (0 + 0 + 1) ++ [strL "A", strL "B"] ++
        ([strL "u00416120", strL "show-text 0 \"x\"", strL "ret"] :
          List (List Char)).drop e).take (0 + 0 + 1) =
        ([strL "u00416120", strL "show-text 0 \"x\"", strL "ret"] :
          List (List Char)).take (0 + 0 + 1) ∧
      craft_splice_loop [((0 : Nat), [strL "A", strL "B"])] 0
          [strL "u00416120", strL "show-text 0 \"x\"", strL "ret"] =
        craft_splice_loop [] (0 + 0 + ([strL "A", strL "B"] :
            List (List Char)).length)
          (([strL "u00416120", strL "show-text 0 \"x\"", strL "ret"] :
            List (List Char)).take (0 + 0 + 1) ++ [strL "A", strL "B"] ++
          ([strL "u00416120", strL "show-text 0 \"x\"", strL "ret"] :
            List (List Char)).drop e) :=
  craft_splice_step_spec [strL "u00416120", strL "show-text 0 \"x\"", strL "ret"]
    0 0 [strL "A", strL "B"] []
    ⟨2, by decide, by decide, by decide⟩

/-!
## Box Detector (`src/eushlator/process/extract_dialogue.py`, `extract_boxes`)

The speaker-tracking regexes are embedded as explicit matchers; all are
anchored matches (`re.match`) over the stripped line, and `\s+` is maximal
whitespace munching (the following literal is never whitespace, so greedy
matching with backtracking equals maximal munch).
-/

/-- Consume the `\s+` of a regex: at least one whitespace character, then all
following whitespace. -/
def munchWS : List Char → Option (List Char)
  | [] => none
  | c :: rest =>
    if c.isWhitespace then some (rest.dropWhile Char.isWhitespace) else none

/-- Consume an exact literal of a regex. -/
def stripPrefixL (p l : List Char) : Option (List Char) :=
  if p.isPrefixOf l then some (l.drop p.length) else none

/-- `LOOKUP_6623.match(st)` (extract_dialogue.py lines 29-31):
`lookup-array\s+\(local-ptr 0\)\s+\(global-int 6623` anchored at the start. -/
def lookup6623Match (l : List Char) : Bool :=
  match stripPrefixL (strL "lookup-array") l with
  | none => false
  | some r1 =>
    match munchWS r1 with
    | none => false
    | some r2 =>
      match stripPrefixL (strL "(local-ptr 0)") r2 with
      | none => false
      | some r3 =>
        match munchWS r3 with
        | none => false
        | some r4 => (strL "(global-int 6623").isPrefixOf r4

/-- One hexadecimal digit (regex class `[0-9a-fA-F]`). -/
def isHexDigitC (c : Char) : Bool :=
  c.isDigit || ('a' ≤ c && c ≤ 'f') || ('A' ≤ c && c ≤ 'F')

def hexDigitVal (c : Char) : Nat :=
  if c.isDigit then c.toNat - '0'.toNat
  else if 'a' ≤ c && c ≤ 'f' then c.toNat - 'a'.toNat + 10
  else c.toNat - 'A'.toNat + 10

/-- Python `int(s, 16)` on a non-empty hex-digit string. -/
def hexVal (ds : List Char) : Nat :=
  ds.foldl (fun acc c => 16 * acc + hexDigitVal c) 0

/-- `MOV_LOCAL_PTR.match(st)` (extract_dialogue.py lines 34-36):
`mov\s+\(local-ptr 0\)\s+([0-9a-fA-F]+)` anchored at the start; returns the
value of the hex capture group, as `int(mv.group(1), 16)` does. -/
def movLocalPtrMatch (l : List Char) : Option Nat :=
  match stripPrefixL (strL "mov") l with
  | none => none
  | some r1 =>
    match munchWS r1 with
    | none => none
    | some r2 =>
      match stripPrefixL (strL "(local-ptr 0)") r2 with
      | none => none
      | some r3 =>
        match munchWS r3 with
        | none => none
        | some r4 =>
          let digits := r4.takeWhile isHexDigitC
          if digits = [] then none else some (hexVal digits)

/-- Python `pat in s` substring test. -/
def hasSubstr (pat : List Char) : List Char → Bool
  | [] => pat.isEmpty
  | c :: rest => pat.isPrefixOf (c :: rest) || hasSubstr pat rest

/-- `is_box_start` (extract_dialogue.py lines 88-99). -/
def is_box_start (line fileName : List Char) : Bool :=
  line == strL "u00416120" || line == strL "304" ||
  (hasSubstr (strL "SG") fileName && line == strL "call label_00004c70")

/-- `SHOW_RE.search(ln)` tried at one position: `show-text 0\s+"(.*)"`, the
greedy group reaching to the LAST quote of the line. -/
def showPayloadAt (l : List Char) : Option (List Char) :=
  match stripPrefixL (strL "show-text 0") l with
  | none => none
  | some r1 =>
    match munchWS r1 with
    | none => none
    | some r2 =>
      match r2 with
      | '"' :: content =>
        match content.reverse.dropWhile (fun c => c != '"') with
        | '"' :: revGroup => some revGroup.reverse
        | _ => none
      | _ => none

/-- `SHOW_RE.search(ln)` (extract_dialogue.py line 39): leftmost position at
which the pattern matches. -/
def searchShow : List Char → Option (List Char)
  | [] => none
  | c :: rest =>
    match showPayloadAt (c :: rest) with
    | some g => some g
    | none => searchShow rest

/-- `FURI_RE.search(ln)` tried at one position:
`display-furigana 0\s+"([^"]+)"\s+"([^"]+)"`. -/
def furiPayloadAt (l : List Char) : Option (List Char × List Char) :=
  match stripPrefixL (strL "display-furigana 0") l with
  | none => none
  | some r1 =>
    match munchWS r1 with
    | none => none
    | some r2 =>
      match r2 with
      | '"' :: r3 =>
        let g1 := r3.takeWhile (fun c => c != '"')
        if g1 = [] then none
        else
          match r3.drop g1.length with
          | '"' :: r4 =>
            match munchWS r4 with
            | none => none
            | some r5 =>
              match r5 with
              | '"' :: r6 =>
                let g2 := r6.takeWhile (fun c => c != '"')
                if g2 = [] then none
                else
                  match r6.drop g2.length with
                  | '"' :: _ => some (g1, g2)
                  | _ => none
              | _ => none
          | _ => none
      | _ => none

/-- `FURI_RE.search(ln)` (extract_dialogue.py line 41). -/
def searchFuri : List Char → Option (List Char × List Char)
  | [] => none
  | c :: rest =>
    match furiPayloadAt (c :: rest) with
    | some g => some g
    | none => searchFuri rest

/-- `unesc` (extract_dialogue.py lines 61-65): replace `\"` by `"`, then `\\`
by `\`, in the order of the `ESC` dict. -/
def unesc (s : List Char) : List Char :=
  replaceAll ['\\', '\\'] ['\\'] (replaceAll ['\\', '"'] ['"'] s)

/-- `join_text` (extract_dialogue.py lines 68-85): collapse the box lines to
one string: a show-text line contributes its unescaped payload, a furigana
line renders as `kanji(furi)`, anything else contributes nothing. -/
def join_text (lines : List (List Char)) : List Char :=
  (lines.map (fun ln =>
    if (strL "show-text 0").isPrefixOf (lstripL ln) then
      match searchShow ln with
      | some payload => unesc payload
      | none => []
    else if (strL "display-furigana 0").isPrefixOf (lstripL ln) then
      match searchFuri ln with
      | some (kanji, furi) => kanji ++ '(' :: (furi ++ [')'])
      | none => []
    else [])).flatten

/-- `TextBox` (extract_dialogue.py lines 51-57).  `start` and `endPos` are
ghost fields recording the scanner's `start_idx` for this box and the
`end_before` passed to `close` — both tracked by the source's state machine
but not stored in its dataclass; they let the theorems speak about the box's
position in the script. -/
structure TextBox where
  idx : Nat
  speaker : List Char
  offset : Int
  jp_text : List Char
  raw : List (List Char)
  start : Int
  endPos : Int
deriving DecidableEq, Repr, Inhabited

/-- The scanner state of `extract_boxes` (extract_dialogue.py lines 124-133). -/
structure ScanState where
  boxes : List TextBox
  pending : Option Nat
  waitingMov : Bool
  inBox : Bool
  afterU : Bool
  buf : List (List Char)
  startIdx : Int
  lastEnd : Int
deriving Repr

def initScan : ScanState :=
  { boxes := []
    pending := none
    waitingMov := false
    inBox := false
    afterU := false
    buf := []
    startIdx := -1
    lastEnd := 0 }

/-- The `TextBox` emitted by `close` (extract_dialogue.py lines 142-145). -/
def mkBox (nm : Nat → Option (List Char)) (st : ScanState) (endBefore : Int) :
    TextBox :=
  { idx := st.boxes.length + 1
    speaker := (st.pending.bind nm).getD (strL "Narrator")
    offset := if 0 ≤ st.lastEnd then st.startIdx - st.lastEnd else 0
    jp_text := join_text (st.buf.drop 1)
    raw := st.buf
    start := st.startIdx
    endPos := endBefore }

/-- `close` (extract_dialogue.py lines 135-150): emit a box when one is open
and buffered, then reset the per-box scanner state. -/
def closeBox (nm : Nat → Option (List Char)) (endBefore : Int)
    (st : ScanState) : ScanState :=
  let st1 :=
    if st.inBox = true ∧ st.buf ≠ [] then
      { st with boxes := st.boxes ++ [mkBox nm st endBefore], lastEnd := endBefore }
    else st
  { st1 with
    inBox := false
    afterU := false
    buf := []
    startIdx := -1
    pending := none }

/-- The speaker-tracking update of one loop iteration (extract_dialogue.py
lines 156-164), literally. -/
def speakerTrackPy (st : ScanState) (s : List Char) : ScanState :=
  if lookup6623Match s then { st with waitingMov := true }
  else if st.waitingMov then
    match movLocalPtrMatch s with
    | some v => { st with pending := some v, waitingMov := false }
    | none => { st with waitingMov := false }
  else st

/-- `speakerTrackPy` in record-update form (proved equal below): after the
update, `waiting_mov` holds exactly when the line is a lookup instruction,
and `pending_speaker` changes only when a `mov` is parsed while waiting. -/
def speakerTrack (st : ScanState) (s : List Char) : ScanState :=
  { st with
    waitingMov := lookup6623Match s
    pending :=
      if lookup6623Match s = false ∧ st.waitingMov = true then
        match movLocalPtrMatch s with
        | some v => some v
        | none => st.pending
      else st.pending }

theorem speakerTrackPy_eq (st : ScanState) (s : List Char) :
    speakerTrackPy st s = speakerTrack st s := by
  obtain ⟨bx, pd, wm, ib, au, bf, si, le⟩ := st
  unfold speakerTrackPy speakerTrack
  by_cases h1 : lookup6623Match s = true
  · simp [h1]
  · have h1' : lookup6623Match s = false := by simpa using h1
    cases wm
    · simp [h1']
    · cases hmv : movLocalPtrMatch s <;> simp [h1', hmv]

/-- One iteration of the `extract_boxes` scan loop (extract_dialogue.py lines
152-197).  `nxt?` is `lines[idx+1]` when it exists (it is the head of the
remaining suffix); reading it past the end of the script is Python
`IndexError`, i.e. `none`. -/
def scanStep (nm : Nat → Option (List Char)) (fname ln : List Char)
    (nxt? : Option (List Char)) (idx : Nat) (st0 : ScanState) :
    Option ScanState :=
  let s := trimL ln
  let st := speakerTrackPy st0 s
  if st.inBox = false then
    if is_box_start s fname = true then
      match nxt? with
      | none => none
      | some nxt =>
        if (strL "show-text").isPrefixOf nxt = false then some st
        else some { st with afterU := true, buf := [ln], startIdx := (idx : Int) }
    else if st.afterU = true then
      if isTextCmd ln = true then
        some { st with inBox := true, buf := st.buf ++ [ln] }
      else some { st with afterU := false, buf := [] }
    else some st
  else
    if isTextCmd ln = true then some { st with buf := st.buf ++ [ln] }
    else
      let st1 := closeBox nm ((idx : Int) - 1) st
      if is_box_start s fname = true then
        match nxt? with
        | none => none
        | some nxt =>
          if (strL "show-text").isPrefixOf nxt = false then some st1
          else some { st1 with afterU := true, buf := [ln], startIdx := (idx : Int) }
      else some st1

/-- The scan loop `for idx, ln in enumerate(lines)`. -/
def scanGo (nm : Nat → Option (List Char)) (fname : List Char) :
    List (List Char) → Nat → ScanState → Option ScanState
  | [], _, st => some st
  | ln :: rest, idx, st =>
    match scanStep nm fname ln rest.head? idx st with
    | none => none
    | some st' => scanGo nm fname rest (idx + 1) st'

/-- `extract_boxes` (extract_dialogue.py lines 103-201): run the scanner over
all lines, then force-close a trailing open box with
`close(len(lines) - 1)`.  `fname` is `path.stem`; `nm` is the speaker-id
name map.  `none` models an uncaught `IndexError`. -/
def extract_boxes (lines : List (List Char)) (fname : List Char)
    (nm : Nat → Option (List Char)) : Option (List TextBox) :=
  (scanGo nm fname lines 0 initScan).map
    (fun st => (closeBox nm ((lines.length : Int) - 1) st).boxes)

theorem is_box_start_cases (s fname : List Char)
    (h : is_box_start s fname = true) :
    s = strL "u00416120" ∨ s = strL "304" ∨ s = strL "call label_00004c70" := by
  unfold is_box_start at h
  simp only [Bool.or_eq_true, Bool.and_eq_true, beq_iff_eq] at h
  rcases h with (h | h) | h
  · exact Or.inl h
  · exact Or.inr (Or.inl h)
  · exact Or.inr (Or.inr h.2)

/-- A box-start marker line never matches the text-content whitelist, so the
scanner always reaches the `is_box_start` check (and with it the
`lines[idx+1]` read) at a marker line, whatever state it is in. -/
theorem box_start_not_textCmd (ln fname : List Char)
    (h : is_box_start (trimL ln) fname = true) : isTextCmd ln = false := by
  have hc := is_box_start_cases _ _ h
  unfold isTextCmd
  rcases hc with h' | h' | h' <;> rw [h'] <;> decide

theorem scanStep_marker_none (nm : Nat → Option (List Char))
    (fname ln : List Char) (idx : Nat) (st : ScanState)
    (hbs : is_box_start (trimL ln) fname = true) :
    scanStep nm fname ln none idx st = none := by
  have hcmd : isTextCmd ln = false := box_start_not_textCmd ln fname hbs
  by_cases hin : (speakerTrackPy st (trimL ln)).inBox = false <;>
    simp [scanStep, hbs, hcmd, hin]

theorem scanStep_isSome_of_some (nm : Nat → Option (List Char))
    (fname ln x : List Char) (idx : Nat) (st : ScanState) :
    (scanStep nm fname ln (some x) idx st).isSome := by
  by_cases hin : (speakerTrackPy st (trimL ln)).inBox = false <;>
  by_cases hbs : is_box_start (trimL ln) fname = true <;>
  by_cases hau : (speakerTrackPy st (trimL ln)).afterU = true <;>
  by_cases hcmd : isTextCmd ln = true <;>
  by_cases hpf : (strL "show-text").isPrefixOf x = false <;>
  simp [scanStep, hin, hbs, hau, hcmd, hpf]

theorem scanStep_nomarker_isSome (nm : Nat → Option (List Char))
    (fname ln : List Char) (idx : Nat) (st : ScanState)
    (hbs : is_box_start (trimL ln) fname = false) :
    (scanStep nm fname ln none idx st).isSome := by
  by_cases hin : (speakerTrackPy st (trimL ln)).inBox = false <;>
  by_cases hau : (speakerTrackPy st (trimL ln)).afterU = true <;>
  by_cases hcmd : isTextCmd ln = true <;>
  simp [scanStep, hbs, hin, hau, hcmd]

theorem scanGo_none_iff (nm : Nat → Option (List Char)) (fname : List Char) :
    ∀ (l : List (List Char)) (idx : Nat) (st : ScanState),
      scanGo nm fname l idx st = none ↔
        (∃ last, l.getLast? = some last ∧
          is_box_start (trimL last) fname = true) := by
  intro l
  induction l with
  | nil => intro idx st; simp [scanGo]
  | cons ln rest ih =>
    intro idx st
    cases rest with
    | nil =>
      simp only [scanGo, List.head?_nil]
      by_cases hbs : is_box_start (trimL ln) fname = true
      · rw [scanStep_marker_none nm fname ln idx st hbs]
        simp [hbs]
      · obtain ⟨st', hst'⟩ := Option.isSome_iff_exists.1
          (scanStep_nomarker_isSome nm fname ln idx st (by simpa using hbs))
        rw [hst']
        simp [scanGo, hbs]
    | cons y rest2 =>
      obtain ⟨st', hst'⟩ := Option.isSome_iff_exists.1
        (scanStep_isSome_of_some nm fname ln y idx st)
      have hone : scanGo nm fname (ln :: y :: rest2) idx st =
          scanGo nm fname (y :: rest2) (idx + 1) st' := by
        rw [scanGo, List.head?_cons, hst']
      rw [hone, ih (idx + 1) st', List.getLast?_cons_cons]

/-- Claim C10: `extract_boxes` reads `lines[idx+1]` unconditionally at every
line recognised as a box-start marker outside a box (the scanner reaches that
check from every state, since a marker never matches the whitelist); hence it
raises `IndexError` (`none`) exactly when the script's final line is a
recognised marker, and returns normally whenever every such marker is
followed by at least one more line. -/
theorem extract_boxes_none_iff (lines : List (List Char)) (fname : List Char)
    (nm : Nat → Option (List Char)) :
    extract_boxes lines fname nm = none ↔
      ∃ last, lines.getLast? = some last ∧
        is_box_start (trimL last) fname = true := by
  unfold extract_boxes
  rw [Option.map_eq_none']
  exact scanGo_none_iff nm fname lines 0 initScan

/-- Junk default used only for positional `getD` indexing of box lists. -/
def dummyBox : TextBox :=
  { idx := 0, speaker := [], offset := 0, jp_text := [], raw := [], start := 0, endPos := 0 }

/-- The scanner's `last_end` as a function of the emitted boxes: `p` before
any box (0 at the start of the scan), the last box's `end_before` after. -/
def endAfter (p : Int) (bs : List TextBox) : Int :=
  match bs.getLast? with
  | none => p
  | some b => b.endPos

theorem endAfter_cons (p : Int) (b : TextBox) (bs : List TextBox) :
    endAfter p (b :: bs) = endAfter b.endPos bs := by
  cases bs with
  | nil => rfl
  | cons c cs =>
    obtain ⟨x, hx⟩ := Option.isSome_iff_exists.1
      (List.getLast?_isSome.2 (List.cons_ne_nil c cs))
    simp [endAfter, List.getLast?_cons_cons, hx]

theorem endAfter_concat (p : Int) (bs : List TextBox) (b : TextBox) :
    endAfter p (bs ++ [b]) = b.endPos := by
  simp [endAfter, List.getLast?_concat]

/-- The per-box facts the scanner guarantees, chained along the box list:
each box's offset is its start minus the previous box's end position (minus
0 for the first box) and is non-negative; the box starts at a real line
whose successor exists and begins with `show-text`; the first raw line is
the line at the start position; and the box ends strictly after its start. -/
def boxesChain (lines : List (List Char)) : Int → List TextBox → Prop
  | _, [] => True
  | prevEnd, b :: rest =>
      b.offset = b.start - prevEnd ∧ 0 ≤ b.offset ∧
      0 ≤ b.start ∧ b.start.toNat + 1 < lines.length ∧
      b.raw.head? = some (lines.getD b.start.toNat []) ∧
      (strL "show-text").isPrefixOf (lines.getD (b.start.toNat + 1) []) = true ∧
      b.start + 1 ≤ b.endPos ∧
      boxesChain lines b.endPos rest

theorem boxesChain_append (lines : List (List Char)) :
    ∀ (bs : List TextBox) (p : Int) (b : TextBox),
      boxesChain lines p bs →
      b.offset = b.start - endAfter p bs → 0 ≤ b.offset →
      0 ≤ b.start → b.start.toNat + 1 < lines.length →
      b.raw.head? = some (lines.getD b.start.toNat []) →
      (strL "show-text").isPrefixOf (lines.getD (b.start.toNat + 1) []) = true →
      b.start + 1 ≤ b.endPos →
      boxesChain lines p (bs ++ [b]) := by
  intro bs
  induction bs with
  | nil =>
    intro p b _ h1 h2 h3 h4 h5 h6 h7
    exact ⟨h1, h2, h3, h4, h5, h6, h7, trivial⟩
  | cons b0 rest ih =>
    intro p b hch h1 h2 h3 h4 h5 h6 h7
    obtain ⟨g1, g2, g3, g4, g5, g6, g7, grest⟩ := hch
    refine ⟨g1, g2, g3, g4, g5, g6, g7, ?_⟩
    exact ih b0.endPos b grest (by rw [h1, endAfter_cons]) h2 h3 h4 h5 h6 h7

theorem boxesChain_mem (lines : List (List Char)) :
    ∀ (bs : List TextBox) (p : Int), boxesChain lines p bs →
      ∀ b ∈ bs, 0 ≤ b.offset ∧ 0 ≤ b.start ∧
        b.start.toNat + 1 < lines.length ∧
        b.raw.head? = some (lines.getD b.start.toNat []) ∧
        (strL "show-text").isPrefixOf (lines.getD (b.start.toNat + 1) []) = true := by
  intro bs
  induction bs with
  | nil => intro p _ b hb; simp at hb
  | cons b0 rest ih =>
    intro p hch b hb
    obtain ⟨_, g2, g3, g4, g5, g6, _, grest⟩ := hch
    rcases List.mem_cons.1 hb with rfl | hb
    · exact ⟨g2, g3, g4, g5, g6⟩
    · exact ih b0.endPos grest b hb

theorem boxesChain_getD (lines : List (List Char)) :
    ∀ (bs : List TextBox) (p : Int), boxesChain lines p bs →
      (bs ≠ [] → (bs.getD 0 dummyBox).offset = (bs.getD 0 dummyBox).start - p) ∧
      (∀ k, k + 1 < bs.length →
        (bs.getD (k + 1) dummyBox).offset =
          (bs.getD (k + 1) dummyBox).start - (bs.getD k dummyBox).endPos) := by
  intro bs
  induction bs with
  | nil =>
    intro p _
    exact ⟨fun h => absurd rfl h, fun k hk => by simp at hk⟩
  | cons b rest ih =>
    intro p hch
    obtain ⟨h1, _, _, _, _, _, _, hrest⟩ := hch
    obtain ⟨ih1, ih2⟩ := ih b.endPos hrest
    constructor
    · intro _
      simpa using h1
    · intro k hk
      cases k with
      | zero =>
        have hrne : rest ≠ [] := by
          intro h; rw [h] at hk; simp at hk
        simpa [List.getD_cons_succ, List.getD_cons_zero] using ih1 hrne
      | succ k' =>
        have hk' : k' + 1 < rest.length := by simpa using hk
        simpa [List.getD_cons_succ] using ih2 k' hk'

/-- The scanner invariant, before processing index `idx`. -/
def ScanInv (lines : List (List Char)) (idx : Nat) (st : ScanState) : Prop :=
  boxesChain lines 0 st.boxes ∧
  st.lastEnd = endAfter 0 st.boxes ∧
  0 ≤ st.lastEnd ∧
  st.lastEnd ≤ (idx : Int) ∧
  ((st.afterU = true ∨ st.inBox = true) →
    0 ≤ st.startIdx ∧ st.startIdx < (idx : Int) ∧
    st.startIdx.toNat + 1 < lines.length ∧
    st.buf.head? = some (lines.getD st.startIdx.toNat []) ∧
    (strL "show-text").isPrefixOf (lines.getD (st.startIdx.toNat + 1) []) = true ∧
    st.lastEnd ≤ st.startIdx) ∧
  (st.inBox = true → st.buf ≠ [] ∧ st.startIdx + 2 ≤ (idx : Int))

theorem initScan_inv (lines : List (List Char)) : ScanInv lines 0 initScan := by
  refine ⟨trivial, rfl, le_refl 0, le_refl 0, ?_, ?_⟩
  · intro h
    rcases h with h | h <;> simp [initScan] at h
  · intro h
    simp [initScan] at h

theorem ScanInv_mono (lines : List (List Char)) (idx : Nat) (st : ScanState)
    (h : ScanInv lines idx st) : ScanInv lines (idx + 1) st := by
  obtain ⟨h1, h2, h3, h4, h5, h6⟩ := h
  refine ⟨h1, h2, h3, by push_cast; omega, ?_, ?_⟩
  · intro hg
    obtain ⟨a1, a2, a3, a4, a5, a6⟩ := h5 hg
    exact ⟨a1, by push_cast at a2 ⊢; omega, a3, a4, a5, a6⟩
  · intro hg
    obtain ⟨a1, a2⟩ := h6 hg
    exact ⟨a1, by push_cast at a2 ⊢; omega⟩

theorem head?_append_singleton {α : Type} (A : List α) (x h : α)
    (hh : A.head? = some h) : (A ++ [x]).head? = some h := by
  cases A with
  | nil => simp at hh
  | cons a t => simpa using hh

theorem closeBox_emit (nm : Nat → Option (List Char)) (eb : Int)
    (st : ScanState) (h : st.inBox = true ∧ st.buf ≠ []) :
    closeBox nm eb st =
      { boxes := st.boxes ++ [mkBox nm st eb]
        pending := none
        waitingMov := st.waitingMov
        inBox := false
        afterU := false
        buf := []
        startIdx := -1
        lastEnd := eb } := by
  unfold closeBox
  rw [if_pos h]

theorem closeBox_skip (nm : Nat → Option (List Char)) (eb : Int)
    (st : ScanState) (h : ¬ (st.inBox = true ∧ st.buf ≠ [])) :
    closeBox nm eb st =
      { st with
        inBox := false
        afterU := false
        buf := []
        startIdx := -1
        pending := none } := by
  unfold closeBox
  rw [if_neg h]

/-- Opening a pending box at line `idx` (a confirmed marker) preserves the
invariant. -/
theorem ScanInv_start (lines : List (List Char)) (idx : Nat) (S : ScanState)
    (ln : List Char) (hv : ScanInv lines idx S) (hin : S.inBox = false)
    (hlnD : lines.getD idx [] = ln) (hlt2 : idx + 1 < lines.length)
    (hpf : (strL "show-text").isPrefixOf (lines.getD (idx + 1) []) = true) :
    ScanInv lines (idx + 1)
      { S with afterU := true, buf := [ln], startIdx := (idx : Int) } := by
  obtain ⟨v1, v2, v3, v4, v5, v6⟩ := hv
  have htn : ((idx : Int)).toNat = idx := by omega
  refine ⟨v1, v2, v3, by push_cast at v4 ⊢; omega, ?_, ?_⟩
  · intro _
    refine ⟨Int.natCast_nonneg idx, by push_cast; omega, ?_, ?_, ?_, ?_⟩
    · rw [htn]; exact hlt2
    · show some ln = _
      rw [htn, hlnD]
    · rw [htn]; exact hpf
    · exact v4
  · intro hib
    exact absurd (hin ▸ hib : S.inBox = true) (by rw [hin]; simp)

/-- Confirming a pending box (first whitelist line after the marker)
preserves the invariant. -/
theorem ScanInv_enter (lines : List (List Char)) (idx : Nat) (S : ScanState)
    (ln : List Char) (hv : ScanInv lines idx S) (hau : S.afterU = true) :
    ScanInv lines (idx + 1) { S with inBox := true, buf := S.buf ++ [ln] } := by
  obtain ⟨v1, v2, v3, v4, v5, v6⟩ := hv
  obtain ⟨a1, a2, a3, a4, a5, a6⟩ := v5 (Or.inl hau)
  obtain ⟨h0, hh⟩ := Option.isSome_iff_exists.1 (Option.isSome_iff_exists.2 ⟨_, a4⟩)
  refine ⟨v1, v2, v3, by push_cast at v4 ⊢; omega, ?_, ?_⟩
  · intro _
    exact ⟨a1, by push_cast at a2 ⊢; omega, a3,
      head?_append_singleton S.buf ln _ a4, a5, a6⟩
  · intro _
    constructor
    · simp
    · show S.startIdx + 2 ≤ ((idx + 1 : Nat) : Int)
      push_cast at a2 ⊢
      omega

/-- Buffering one more whitelist line into an open box preserves the
invariant. -/
theorem ScanInv_buf (lines : List (List Char)) (idx : Nat) (S : ScanState)
    (ln : List Char) (hv : ScanInv lines idx S) (hib : S.inBox = true) :
    ScanInv lines (idx + 1) { S with buf := S.buf ++ [ln] } := by
  obtain ⟨v1, v2, v3, v4, v5, v6⟩ := hv
  obtain ⟨a1, a2, a3, a4, a5, a6⟩ := v5 (Or.inr hib)
  obtain ⟨b1, b2⟩ := v6 hib
  refine ⟨v1, v2, v3, by push_cast at v4 ⊢; omega, ?_, ?_⟩
  · intro _
    exact ⟨a1, by push_cast at a2 ⊢; omega, a3,
      head?_append_singleton S.buf ln _ a4, a5, a6⟩
  · intro _
    refine ⟨by simp, ?_⟩
    show S.startIdx + 2 ≤ ((idx + 1 : Nat) : Int)
    push_cast at b2 ⊢
    omega

/-- Dropping a false pending start preserves the invariant. -/
theorem ScanInv_reset (lines : List (List Char)) (idx : Nat) (S : ScanState)
    (hv : ScanInv lines idx S) (hin : S.inBox = false) :
    ScanInv lines (idx + 1) { S with afterU := false, buf := [] } := by
  obtain ⟨v1, v2, v3, v4, v5, v6⟩ := hv
  refine ⟨v1, v2, v3, by push_cast at v4 ⊢; omega, ?_, ?_⟩
  · intro hg
    rcases hg with hg | hg
    · exact absurd hg (by simp)
    · exact absurd (hin ▸ hg : S.inBox = true) (by rw [hin]; simp)
  · intro hg
    exact absurd (hin ▸ hg : S.inBox = true) (by rw [hin]; simp)

/-- Closing an open box at line `idx` (the first non-whitelist line after the
body) preserves the invariant: the emitted box extends the chain. -/
theorem ScanInv_close (lines : List (List Char)) (idx : Nat)
    (nm : Nat → Option (List Char)) (S : ScanState)
    (hv : ScanInv lines idx S) (hib : S.inBox = true) :
    ScanInv lines idx (closeBox nm ((idx : Int) - 1) S) := by
  obtain ⟨v1, v2, v3, v4, v5, v6⟩ := hv
  obtain ⟨a1, a2, a3, a4, a5, a6⟩ := v5 (Or.inr hib)
  obtain ⟨b1, b2⟩ := v6 hib
  rw [closeBox_emit nm _ S ⟨hib, b1⟩]
  have hchain : boxesChain lines 0 (S.boxes ++ [mkBox nm S ((idx : Int) - 1)]) := by
    apply boxesChain_append lines S.boxes 0 _ v1
    · show (if 0 ≤ S.lastEnd then S.startIdx - S.lastEnd else 0) = S.startIdx - endAfter 0 S.boxes
      rw [if_pos v3, v2]
    · show (0 : Int) ≤ (if 0 ≤ S.lastEnd then S.startIdx - S.lastEnd else 0)
      rw [if_pos v3]
      omega
    · exact a1
    · exact a3
    · exact a4
    · exact a5
    · show S.startIdx + 1 ≤ (idx : Int) - 1
      omega
  refine ⟨hchain, ?_, ?_, ?_, ?_, ?_⟩
  · show ((idx : Int) - 1) = endAfter 0 (S.boxes ++ [mkBox nm S ((idx : Int) - 1)])
    rw [endAfter_concat]
    rfl
  · show (0 : Int) ≤ (idx : Int) - 1
    omega
  · show ((idx : Int) - 1) ≤ (idx : Int)
    omega
  · intro hg
    rcases hg with hg | hg <;> exact absurd hg (by simp)
  · intro hg
    exact absurd hg (by simp)

/-- One scanner step preserves the invariant. -/
theorem scanStep_inv (nm : Nat → Option (List Char)) (fname : List Char)
    (lines : List (List Char)) (idx : Nat) (ln : List Char)
    (rest : List (List Char)) (hdrop : lines.drop idx = ln :: rest)
    (st st' : ScanState)
    (hstep : scanStep nm fname ln rest.head? idx st = some st')
    (hinv : ScanInv lines idx st) : ScanInv lines (idx + 1) st' := by
  have hi : idx < lines.length := by
    by_contra hge
    rw [List.drop_eq_nil_of_le (by omega)] at hdrop
    exact List.cons_ne_nil ln rest hdrop.symm
  have hdec := List.drop_eq_getElem_cons hi
  rw [hdec] at hdrop
  obtain ⟨hln, hrest⟩ := List.cons.inj hdrop
  have hlnD : lines.getD idx [] = ln := by
    rw [← hln]
    exact List.getD_eq_getElem lines [] hi
  have hinvS : ScanInv lines idx (speakerTrackPy st (trimL ln)) := by
    rw [speakerTrackPy_eq]
    exact hinv
  simp only [scanStep] at hstep
  by_cases hin : (speakerTrackPy st (trimL ln)).inBox = false
  · rw [if_pos hin] at hstep
    by_cases hbs : is_box_start (trimL ln) fname = true
    · rw [if_pos hbs] at hstep
      cases hnx : rest.head? with
      | none =>
        rw [hnx] at hstep
        exact absurd hstep (by simp)
      | some nxt =>
        rw [hnx] at hstep
        rw [← hrest, List.head?_drop] at hnx
        have hlt2 : idx + 1 < lines.length := by
          by_contra hh
          rw [List.getElem?_eq_none (by omega)] at hnx
          exact absurd hnx (by simp)
        have hnxD : lines.getD (idx + 1) [] = nxt := by
          rw [List.getD_eq_getElem lines [] hlt2]
          rw [List.getElem?_eq_getElem hlt2] at hnx
          exact Option.some.inj hnx
        have hstep2 : (if (strL "show-text").isPrefixOf nxt = false then
            (some (speakerTrackPy st (trimL ln)) : Option ScanState)
          else some { speakerTrackPy st (trimL ln) with
            afterU := true, buf := [ln], startIdx := (idx : Int) }) = some st' := hstep
        by_cases hpf : (strL "show-text").isPrefixOf nxt = false
        · rw [if_pos hpf] at hstep2
          obtain rfl : speakerTrackPy st (trimL ln) = st' := Option.some.inj hstep2
          exact ScanInv_mono lines idx _ hinvS
        · rw [if_neg hpf] at hstep2
          obtain rfl : { speakerTrackPy st (trimL ln) with
              afterU := true, buf := [ln], startIdx := (idx : Int) } = st' :=
            Option.some.inj hstep2
          exact ScanInv_start lines idx _ ln hinvS hin hlnD hlt2
            (by rw [hnxD]; simpa using hpf)
    · rw [if_neg hbs] at hstep
      by_cases hau : (speakerTrackPy st (trimL ln)).afterU = true
      · rw [if_pos hau] at hstep
        by_cases hcmd : isTextCmd ln = true
        · rw [if_pos hcmd] at hstep
          obtain rfl : { speakerTrackPy st (trimL ln) with
              inBox := true, buf := (speakerTrackPy st (trimL ln)).buf ++ [ln] } = st' :=
            Option.some.inj hstep
          exact ScanInv_enter lines idx _ ln hinvS hau
        · rw [if_neg hcmd] at hstep
          obtain rfl : { speakerTrackPy st (trimL ln) with
              afterU := false, buf := [] } = st' := Option.some.inj hstep
          exact ScanInv_reset lines idx _ hinvS hin
      · rw [if_neg hau] at hstep
        obtain rfl : speakerTrackPy st (trimL ln) = st' := Option.some.inj hstep
        exact ScanInv_mono lines idx _ hinvS
  · rw [if_neg hin] at hstep
    have hib : (speakerTrackPy st (trimL ln)).inBox = true := by
      simpa using hin
    by_cases hcmd : isTextCmd ln = true
    · rw [if_pos hcmd] at hstep
      obtain rfl : { speakerTrackPy st (trimL ln) with
          buf := (speakerTrackPy st (trimL ln)).buf ++ [ln] } = st' :=
        Option.some.inj hstep
      exact ScanInv_buf lines idx _ ln hinvS hib
    · rw [if_neg hcmd] at hstep
      have hinv1 : ScanInv lines idx
          (closeBox nm ((idx : Int) - 1) (speakerTrackPy st (trimL ln))) :=
        ScanInv_close lines idx nm _ hinvS hib
      have hin1 : (closeBox nm ((idx : Int) - 1)
          (speakerTrackPy st (trimL ln))).inBox = false := by
        unfold closeBox
        split <;> rfl
      by_cases hbs : is_box_start (trimL ln) fname = true
      · rw [if_pos hbs] at hstep
        cases hnx : rest.head? with
        | none =>
          rw [hnx] at hstep
          exact absurd hstep (by simp)
        | some nxt =>
          rw [hnx] at hstep
          rw [← hrest, List.head?_drop] at hnx
          have hlt2 : idx + 1 < lines.length := by
            by_contra hh
            rw [List.getElem?_eq_none (by omega)] at hnx
            exact absurd hnx (by simp)
          have hnxD : lines.getD (idx + 1) [] = nxt := by
            rw [List.getD_eq_getElem lines [] hlt2]
            rw [List.getElem?_eq_getElem hlt2] at hnx
            exact Option.some.inj hnx
          have hstep2 : (if (strL "show-text").isPrefixOf nxt = false then
              (some (closeBox nm ((idx : Int) - 1)
                (speakerTrackPy st (trimL ln))) : Option ScanState)
            else some { closeBox nm ((idx : Int) - 1)
                (speakerTrackPy st (trimL ln)) with
              afterU := true, buf := [ln], startIdx := (idx : Int) }) = some st' := hstep
          by_cases hpf : (strL "show-text").isPrefixOf nxt = false
          · rw [if_pos hpf] at hstep2
            obtain rfl : closeBox nm ((idx : Int) - 1)
                (speakerTrackPy st (trimL ln)) = st' := Option.some.inj hstep2
            exact ScanInv_mono lines idx _ hinv1
          · rw [if_neg hpf] at hstep2
            obtain rfl : { closeBox nm ((idx : Int) - 1)
                  (speakerTrackPy st (trimL ln)) with
                afterU := true, buf := [ln], startIdx := (idx : Int) } = st' :=
              Option.some.inj hstep2
            exact ScanInv_start lines idx _ ln hinv1 hin1 hlnD hlt2
              (by rw [hnxD]; simpa using hpf)
      · rw [if_neg hbs] at hstep
        obtain rfl : closeBox nm ((idx : Int) - 1)
            (speakerTrackPy st (trimL ln)) = st' := Option.some.inj hstep
        exact ScanInv_mono lines idx _ hinv1

theorem scanGo_inv (nm : Nat → Option (List Char)) (fname : List Char)
    (lines : List (List Char)) :
    ∀ (l : List (List Char)) (idx : Nat) (st st' : ScanState),
      l = lines.drop idx → idx ≤ lines.length →
      scanGo nm fname l idx st = some st' → ScanInv lines idx st →
      ScanInv lines lines.length st' := by
  intro l
  induction l with
  | nil =>
    intro idx st st' hd hle hgo hinv
    obtain rfl : st = st' := by simpa [scanGo] using hgo
    have hge : lines.length ≤ idx := by
      by_contra h
      rw [List.drop_eq_getElem_cons (by omega)] at hd
      exact List.cons_ne_nil _ _ hd.symm
    obtain rfl : idx = lines.length := le_antisymm hle hge
    exact hinv
  | cons ln rest ih =>
    intro idx st st' hd hle hgo hinv
    cases hstep : scanStep nm fname ln rest.head? idx st with
    | none =>
      have : scanGo nm fname (ln :: rest) idx st = none := by
        rw [scanGo, hstep]
      rw [this] at hgo
      exact absurd hgo (by simp)
    | some st1 =>
      have hgo' : scanGo nm fname rest (idx + 1) st1 = some st' := by
        rw [scanGo, hstep] at hgo
        exact hgo
      have hi : idx < lines.length := by
        by_contra hge
        rw [List.drop_eq_nil_of_le (by omega)] at hd
        exact List.cons_ne_nil ln rest hd
      have hd0 : lines.drop idx = ln :: rest := hd.symm
      have hdec := List.drop_eq_getElem_cons hi
      rw [hdec] at hd
      obtain ⟨_, hrest⟩ := List.cons.inj hd.symm
      exact ih (idx + 1) st1 st' hrest.symm (by omega) hgo'
        (scanStep_inv nm fname lines idx ln rest hd0 st st1 hstep hinv)

/-- The box list returned by `extract_boxes` satisfies the chained per-box
facts, including those contributed by the forced `close(len(lines) - 1)` at
end of input. -/
theorem extract_boxes_chain (lines : List (List Char)) (fname : List Char)
    (nm : Nat → Option (List Char)) (boxes : List TextBox)
    (h : extract_boxes lines fname nm = some boxes) :
    boxesChain lines 0 boxes := by
  unfold extract_boxes at h
  cases hsg : scanGo nm fname lines 0 initScan with
  | none =>
    rw [hsg] at h
    exact absurd h (by simp)
  | some st =>
    rw [hsg] at h
    simp only [Option.map_some'] at h
    obtain rfl : (closeBox nm ((lines.length : Int) - 1) st).boxes = boxes :=
      Option.some.inj h
    have hinv : ScanInv lines lines.length st :=
      scanGo_inv nm fname lines lines 0 initScan st (List.drop_zero lines).symm
        (by omega) hsg (initScan_inv lines)
    obtain ⟨v1, v2, v3, v4, v5, v6⟩ := hinv
    by_cases hc : st.inBox = true ∧ st.buf ≠ []
    · obtain ⟨a1, a2, a3, a4, a5, a6⟩ := v5 (Or.inr hc.1)
      obtain ⟨b1, b2⟩ := v6 hc.1
      rw [closeBox_emit nm _ st hc]
      show boxesChain lines 0 (st.boxes ++ [mkBox nm st ((lines.length : Int) - 1)])
      apply boxesChain_append lines st.boxes 0 _ v1
      · show (if 0 ≤ st.lastEnd then st.startIdx - st.lastEnd else 0) =
          st.startIdx - endAfter 0 st.boxes
        rw [if_pos v3, v2]
      · show (0 : Int) ≤ (if 0 ≤ st.lastEnd then st.startIdx - st.lastEnd else 0)
        rw [if_pos v3]
        omega
      · exact a1
      · exact a3
      · exact a4
      · exact a5
      · show st.startIdx + 1 ≤ (lines.length : Int) - 1
        omega
    · rw [closeBox_skip nm _ st hc]
      exact v1

/-- Claim C7: every box produced by `extract_boxes` has `offset ≥ 0`; the
first box's offset equals its start line position measured from position 0,
and every later box's offset equals its start line position minus the end
line position of the previous box. -/
theorem extract_boxes_offsets (lines : List (List Char)) (fname : List Char)
    (nm : Nat → Option (List Char)) (boxes : List TextBox)
    (h : extract_boxes lines fname nm = some boxes) :
    (∀ b ∈ boxes, 0 ≤ b.offset) ∧
    (boxes ≠ [] →
      (boxes.getD 0 dummyBox).offset = (boxes.getD 0 dummyBox).start) ∧
    (∀ k, k + 1 < boxes.length →
      (boxes.getD (k + 1) dummyBox).offset =
        (boxes.getD (k + 1) dummyBox).start - (boxes.getD k dummyBox).endPos) := by
  have hch := extract_boxes_chain lines fname nm boxes h
  obtain ⟨hg1, hg2⟩ := boxesChain_getD lines boxes 0 hch
  refine ⟨fun b hb => (boxesChain_mem lines boxes 0 hch b hb).1, ?_, hg2⟩
  intro hne
  simpa using hg1 hne

/-- Claim C6: a line recognised as a box-start marker whose immediately
following line is not a show-text instruction is never treated as a box
start: no box emitted by `extract_boxes` starts there, and every emitted
box's raw buffer begins with the line at its start position (whose successor
does start with `show-text`). -/
theorem extract_boxes_no_false_start (lines : List (List Char))
    (fname : List Char) (nm : Nat → Option (List Char)) (boxes : List TextBox)
    (h : extract_boxes lines fname nm = some boxes) (i : Nat)
    (_hmark : is_box_start (trimL (lines.getD i [])) fname = true)
    (hnoshow : (strL "show-text").isPrefixOf (lines.getD (i + 1) []) = false) :
    ∀ b ∈ boxes, b.start ≠ (i : Int) ∧
      b.raw.head? = some (lines.getD b.start.toNat []) := by
  intro b hb
  have hm := boxesChain_mem lines boxes 0
    (extract_boxes_chain lines fname nm boxes h) b hb
  refine ⟨?_, hm.2.2.2.1⟩
  intro hstart
  have h1 := hm.2.2.2.2
  have htn : b.start.toNat = i := by
    rw [hstart]
    omega
  rw [← htn] at hnoshow
  rw [h1] at hnoshow
  exact absurd hnoshow (by simp)

/-- Witness for C7 at a concrete input: a three-line script with one box
starting at line 0 and ending at line 1. -/
theorem extract_boxes_offsets_witness :
    (∀ b ∈ [(⟨1, strL "Narrator", 0, ['a'],
        [strL "u00416120", strL "show-text 0 \"a\""], 0, 1⟩ : TextBox)],
      0 ≤ b.offset) ∧
    (([(⟨1, strL "Narrator", 0, ['a'],
        [strL "u00416120", strL "show-text 0 \"a\""], 0, 1⟩ : TextBox)] :
        List TextBox) ≠ [] →
      (([(⟨1, strL "Narrator", 0, ['a'],
          [strL "u00416120", strL "show-text 0 \"a\""], 0, 1⟩ : TextBox)] :
          List TextBox).getD 0 dummyBox).offset =
        (([(⟨1, strL "Narrator", 0, ['a'],
          [strL "u00416120", strL "show-text 0 \"a\""], 0, 1⟩ : TextBox)] :
          List TextBox).getD 0 dummyBox).start) ∧
    (∀ k, k + 1 < ([(⟨1, strL "Narrator", 0, ['a'],
        [strL "u00416120", strL "show-text 0 \"a\""], 0, 1⟩ : TextBox)] :
        List TextBox).length →
      (([(⟨1, strL "Narrator", 0, ['a'],
          [strL "u00416120", strL "show-text 0 \"a\""], 0, 1⟩ : TextBox)] :
          List TextBox).getD (k + 1) dummyBox).offset =
        (([(⟨1, strL "Narrator", 0, ['a'],
          [strL "u00416120", strL "show-text 0 \"a\""], 0, 1⟩ : TextBox)] :
          List TextBox).getD (k + 1) dummyBox).start -
        (([(⟨1, strL "Narrator", 0, ['a'],
          [strL "u00416120", strL "show-text 0 \"a\""], 0, 1⟩ : TextBox)] :
          List TextBox).getD k dummyBox).endPos) :=
  extract_boxes_offsets
    [strL "u00416120", strL "show-text 0 \"a\"", strL "ret"]
    (strL "SC0001") (fun _ => none)
    [⟨1, strL "Narrator", 0, ['a'],
      [strL "u00416120", strL "show-text 0 \"a\""], 0, 1⟩]
    (by decide)

/-- Witness for C6 at a concrete input: line 0 is a marker whose successor
`ret` is not a show-text line; the single emitted box starts at line 2, not
at line 0. -/
theorem extract_boxes_no_false_start_witness :
    (⟨1, strL "Narrator", 2, ['a'],
      [strL "u00416120", strL "show-text 0 \"a\""], 2, 3⟩ : TextBox).start ≠
        ((0 : Nat) : Int) ∧
    (⟨1, strL "Narrator", 2, ['a'],
      [strL "u00416120", strL "show-text 0 \"a\""], 2, 3⟩ : TextBox).raw.head? =
      some (([strL "u00416120", strL "ret", strL "u00416120",
        strL "show-text 0 \"a\"", strL "ret"] : List (List Char)).getD
        (⟨1, strL "Narrator", 2, ['a'],
          [strL "u00416120", strL "show-text 0 \"a\""], 2, 3⟩ :
          TextBox).start.toNat []) :=
  extract_boxes_no_false_start
    [strL "u00416120", strL "ret", strL "u00416120",
      strL "show-text 0 \"a\"", strL "ret"]
    (strL "SC0001") (fun _ => none)
    [⟨1, strL "Narrator", 2, ['a'],
      [strL "u00416120", strL "show-text 0 \"a\""], 2, 3⟩]
    (by decide) 0 (by decide) (by decide)
    ⟨1, strL "Narrator", 2, ['a'],
      [strL "u00416120", strL "show-text 0 \"a\""], 2, 3⟩
    (by decide)

/-- Witness for C10 at a concrete input: a script ending in a bare marker
crashes; adding one more line after the marker returns normally. -/
theorem extract_boxes_none_iff_witness :
    extract_boxes [strL "u00416120"] (strL "SC0001") (fun _ => none) = none ∧
    extract_boxes [strL "u00416120", strL "ret"] (strL "SC0001")
      (fun _ => none) ≠ none :=
  ⟨(extract_boxes_none_iff [strL "u00416120"] (strL "SC0001")
      (fun _ => none)).2 ⟨strL "u00416120", by decide, by decide⟩,
   fun h => by
    obtain ⟨last, hlast, hmark⟩ :=
      (extract_boxes_none_iff [strL "u00416120", strL "ret"] (strL "SC0001")
        (fun _ => none)).1 h
    rw [show ([strL "u00416120", strL "ret"] :
        List (List Char)).getLast? = some (strL "ret") from by decide] at hlast
    obtain rfl := Option.some.inj hlast
    exact absurd hmark (by decide)⟩

/-- Invariant carried through `collapseGo`: every finished chunk's text is the
newline join of its member boxes' texts. -/
def chunkTextOK (c : Chunk) : Prop :=
  c.text = [Char.ofNat 10].intercalate (c.src.map BoxD.text)

theorem collapseGo_textOK (rest : List BoxD) (spk : List Char)
    (lines : List (List Char)) (srcs : List BoxD) (i : Nat) (chunks : List Chunk)
    (hlines : lines = srcs.map BoxD.text)
    (hchunks : ∀ c ∈ chunks, chunkTextOK c) :
    ∀ c ∈ collapseGo rest spk lines srcs i chunks, chunkTextOK c := by
  induction rest generalizing spk lines srcs i chunks with
  | nil =>
    intro c hc
    simp only [collapseGo] at hc
    rcases List.mem_append.1 hc with h | h
    · exact hchunks c h
    · rcases List.mem_singleton.1 h with rfl
      simp [chunkTextOK, hlines]
  | cons b rest ih =>
    intro c hc
    simp only [collapseGo] at hc
    by_cases hs : b.speaker = spk
    · rw [if_pos hs] at hc
      refine ih spk (lines ++ [b.text]) (srcs ++ [b]) i chunks ?_ hchunks c hc
      simp [hlines]
    · rw [if_neg hs] at hc
      refine ih b.speaker [b.text] [b] (i + 1) _ rfl ?_ c hc
      intro c' hc'
      rcases List.mem_append.1 hc' with h | h
      · exact hchunks c' h
      · rcases List.mem_singleton.1 h with rfl
        simp [chunkTextOK, hlines]

/-- Claim C8: for every chunk produced by the Chunk Collapser, joining the
texts of the consecutive same-speaker boxes merged into that chunk with a
newline separator reproduces the chunk's text exactly. -/
theorem collapse_boxes_text_roundtrip (boxes : List BoxD) (c : Chunk)
    (hc : c ∈ collapse_boxes boxes) :
    c.text = [Char.ofNat 10].intercalate (c.src.map BoxD.text) := by
  cases boxes with
  | nil => simp [collapse_boxes] at hc
  | cons b0 rest =>
    exact collapseGo_textOK rest b0.speaker [b0.text] [b0] 1 [] rfl
      (by intro c h; simp at h) c hc

/-- Witness for C8 at a concrete input: two same-speaker boxes followed by a
speaker change produce chunks satisfying the round-trip equation. -/
theorem collapse_boxes_text_roundtrip_witness :
    (⟨['A'], ['x', Char.ofNat 10, 'y'], 1, [⟨['A'], ['x']⟩, ⟨['A'], ['y']⟩]⟩ : Chunk) ∈
      collapse_boxes [⟨['A'], ['x']⟩, ⟨['A'], ['y']⟩, ⟨['B'], ['z']⟩] ∧
    (⟨['A'], ['x', Char.ofNat 10, 'y'], 1, [⟨['A'], ['x']⟩, ⟨['A'], ['y']⟩]⟩ : Chunk).text =
      [Char.ofNat 10].intercalate
        ((⟨['A'], ['x', Char.ofNat 10, 'y'], 1,
            [⟨['A'], ['x']⟩, ⟨['A'], ['y']⟩]⟩ : Chunk).src.map BoxD.text) :=
  ⟨by decide, collapse_boxes_text_roundtrip
      [⟨['A'], ['x']⟩, ⟨['A'], ['y']⟩, ⟨['B'], ['z']⟩] _ (by decide)⟩

end Eushlator
